import Mathlib

/-!
# Verification of the brickmask coordinate-to-mask assignment pipeline

A shallow embedding, in Lean 4, of the core routines of the `brickmask`
program (assigning Legacy-Survey maskbit codes to catalogue objects by sky
coordinate), together with theorems settling the specified properties.

The embedding follows the C sources:
* `src/get_brick.h` (`compare_pos`, `find_brick`, `get_brick_id`,
  `reorder_mask`, `reorder_mask_reduce`, `sort_data`/`reorder_data`),
* `src/assign_mask.c` (`world2pix`, `assign_mask_from_file`, `assign_mask`),
* `src/bit_code.c` (`assign_bitcode`, EBOSS variant),
* `src/data_io.c` (`data_init`),
* `io/read_fits.c` (`read_wcs_header`, `read_mask`).

Machine doubles are modelled as exact rationals (`ℚ`) where only ordering,
equality and ring operations occur, and as reals (`ℝ`) with an explicit
non-finiteness-tracking option type for the trigonometric projection.
`size_t` arithmetic is modelled as natural numbers with explicit wrap-around
modulo `2^64` where the source can underflow.
-/

/-! ## cfitsio data-type codes

The program stores the maskbit width as one of the cfitsio type codes
`TBYTE`, `TSHORT`, `TINT`, `TLONG` (values from `fitsio.h`; `read_fits.c`
statically asserts `TBYTE < TSHORT < TINT < TLONG`). -/

def TBYTE : Nat := 11

def TSHORT : Nat := 21

def TINT : Nat := 31

def TLONG : Nat := 41

/-- Number of value bits of the unsigned integer type that the program
associates with each cfitsio type code (`unsigned char`, `uint16_t`,
`uint32_t`, `uint64_t` in `reorder_mask_reduce`). -/
def dtypeBits (dtype : Nat) : Option Nat :=
  if dtype = TBYTE then some 8
  else if dtype = TSHORT then some 16
  else if dtype = TINT then some 32
  else if dtype = TLONG then some 64
  else none

/-! ## Scatter writes

Both `reorder_mask` and `reorder_mask_reduce` (`src/get_brick.h`) restore the
pre-sort order with the loop `for (i = 0; i < ndata; i++) mask[idx[i]] = code[i];`
into a freshly allocated buffer.  `setD` models one array store (a store to an
index outside the buffer is undefined behaviour in C; the model leaves the
buffer unchanged, and the theorems below only use in-bounds indices). -/

def setD (a : Array Nat) (i : Nat) (v : Nat) : Array Nat :=
  if h : i < a.size then a.set ⟨i, h⟩ v else a

/-- The scatter loop: sequential stores `buf[p.1] := p.2` for `p` in `ps`. -/
def scatterWrites (ps : List (Nat × Nat)) (buf : Array Nat) : Array Nat :=
  ps.foldl (fun a p => setD a p.1 p.2) buf

/-- `reorder_mask` (`src/get_brick.h`, lines 495-507): allocate a fresh
`ndata`-element buffer (`malloc`; the model fills it with 0, and every cell is
overwritten whenever `idx` covers `[0, ndata)`) and scatter
`mask[idx[i]] = code[i]`. -/
def reorder_mask (code : List Nat) (idx : List Nat) (ndata : Nat) : Array Nat :=
  scatterWrites (idx.zip code) (Array.mkArray ndata 0)

/-- `reorder_mask_reduce` (`src/get_brick.h`, lines 439-483): switch on the
maskbit type code and scatter `mask[idx[i]] = (*code)[i]` where the stored
cell has the width of the chosen type, so the C unsigned conversion reduces
each value modulo `2^w`.  An unexpected type code returns an error (`none`,
for `BRICKMASK_ERR_UNKNOWN`). -/
def reorder_mask_reduce (code : List Nat) (dtype : Nat) (idx : List Nat)
    (ndata : Nat) : Option (Array Nat) :=
  if dtype = TBYTE then
    some (scatterWrites (idx.zip (code.map (· % 2 ^ 8))) (Array.mkArray ndata 0))
  else if dtype = TSHORT then
    some (scatterWrites (idx.zip (code.map (· % 2 ^ 16))) (Array.mkArray ndata 0))
  else if dtype = TINT then
    some (scatterWrites (idx.zip (code.map (· % 2 ^ 32))) (Array.mkArray ndata 0))
  else if dtype = TLONG then
    some (scatterWrites (idx.zip (code.map (· % 2 ^ 64))) (Array.mkArray ndata 0))
  else none

theorem setD_size (a : Array Nat) (i v : Nat) : (setD a i v).size = a.size := by
  unfold setD; split <;> simp

theorem scatterWrites_size (ps : List (Nat × Nat)) (buf : Array Nat) :
    (scatterWrites ps buf).size = buf.size := by
  induction ps generalizing buf with
  | nil => rfl
  | cons p ps ih => simp [scatterWrites, List.foldl_cons] at *; rw [ih, setD_size]

theorem setD_get_self (a : Array Nat) (i v : Nat) (h : i < a.size) :
    (setD a i v)[i]! = v := by
  unfold setD
  rw [dif_pos h]
  rw [getElem!_pos (a.set ⟨i, h⟩ v) i (by simpa using h)]
  exact Array.get_set_eq a ⟨i, h⟩ v

theorem setD_get_other (a : Array Nat) (i j v : Nat) (hne : j ≠ i) :
    (setD a i v)[j]! = a[j]! := by
  unfold setD
  split
  · next h =>
    by_cases hj : j < a.size
    · rw [getElem!_pos (a.set ⟨i, h⟩ v) j (by simpa using hj), getElem!_pos a j hj]
      exact Array.getElem_set_ne a ⟨i, h⟩ v (by simpa using hj) (fun hh => hne hh.symm)
    · rw [getElem!_neg (a.set ⟨i, h⟩ v) j (by simpa using hj), getElem!_neg a j hj]
  · rfl

theorem scatterWrites_get_notMem (ps : List (Nat × Nat)) (buf : Array Nat)
    (j : Nat) (hj : j ∉ ps.map Prod.fst) :
    (scatterWrites ps buf)[j]! = buf[j]! := by
  induction ps generalizing buf with
  | nil => rfl
  | cons p ps ih =>
    simp only [List.map_cons, List.mem_cons] at hj
    push_neg at hj
    simp only [scatterWrites, List.foldl_cons] at *
    rw [ih _ hj.2, setD_get_other _ _ _ _ hj.1]

theorem scatterWrites_get_mem (ps : List (Nat × Nat)) (buf : Array Nat)
    (j v : Nat) (hnd : (ps.map Prod.fst).Nodup) (hmem : (j, v) ∈ ps)
    (hj : j < buf.size) :
    (scatterWrites ps buf)[j]! = v := by
  induction ps generalizing buf with
  | nil => cases hmem
  | cons p ps ih =>
    simp only [List.map_cons, List.nodup_cons] at hnd
    rcases List.mem_cons.mp hmem with h | h
    · subst h
      simp only [scatterWrites, List.foldl_cons]
      have := scatterWrites_get_notMem ps (setD buf j v) j hnd.1
      simp only [scatterWrites] at this
      rw [this, setD_get_self _ _ _ hj]
    · simp only [scatterWrites, List.foldl_cons]
      exact ih (setD buf p.1 p.2) hnd.2 h (by rw [setD_size]; exact hj)

theorem scatter_perm_get (code idx : List Nat) (n : Nat) (hlen : code.length = n)
    (hperm : idx.Perm (List.range n)) (i : Nat) (hi : i < n) :
    (scatterWrites (idx.zip code) (Array.mkArray n 0))[idx[i]!]! = code[i]! := by
  have hil : idx.length = n := by simpa using hperm.length_eq
  have hnd : idx.Nodup := (List.Perm.nodup_iff hperm).mpr (List.nodup_range n)
  have hii : i < idx.length := by omega
  have hic : i < code.length := by omega
  have hmem : (idx[i]!, code[i]!) ∈ idx.zip code := by
    rw [getElem!_pos idx i hii, getElem!_pos code i hic]
    have hz : i < (idx.zip code).length := by
      rw [List.length_zip]; omega
    have hmem0 : (idx.zip code)[i] ∈ idx.zip code := List.getElem_mem hz
    have hzeq : (idx.zip code)[i] = (idx[i], code[i]) := List.getElem_zip
    rw [hzeq] at hmem0
    exact hmem0
  have hfst : (idx.zip code).map Prod.fst = idx :=
    List.map_fst_zip idx code (by omega)
  have hlt : idx[i]! < n := by
    rw [getElem!_pos idx i hii]
    have : idx[i] ∈ idx := List.getElem_mem hii
    have := hperm.mem_iff.mp this
    exact List.mem_range.mp this
  exact scatterWrites_get_mem (idx.zip code) (Array.mkArray n 0) idx[i]! code[i]!
    (by rw [hfst]; exact hnd) hmem (by simpa using hlt)

/-- C1: the round trip.  `sort_data` (`src/get_brick.h`) first stores the
original position of every object (`data->idx[i] = i` in `read_data`), then
sorts the records by brick id with `tim_sort` (an external generic sort: any
permutation of the records whose ids end up in non-decreasing order).
`reorder_data` then calls `reorder_mask`, which scatters every value through
the carried index array.  The theorem: for any input catalogue whose index
column is `[0, 1, ..., n-1]` and any sorted permutation of it, scattering the
carried indices through themselves restores `[0, 1, ..., n-1]` exactly, and
every per-object value computed in sorted order is scattered back to the
array position the object started from. -/
structure DataElement where
  ra : ℚ
  dec : ℚ
  idx : Nat
  id : Int
deriving DecidableEq, Repr

/-- `sort_data` post-state: a permutation of the input records that is
non-decreasing in the brick-id column (the contract of `tim_sort`). -/
def sortedByBrickId (s input : List DataElement) : Prop :=
  s.Perm input ∧ (s.map DataElement.id).Sorted (· ≤ ·)

instance (s input : List DataElement) : Decidable (sortedByBrickId s input) := by
  unfold sortedByBrickId; infer_instance

/-- C1: sorting by brick id followed by the `reorder_mask` scatter restores
the original input order: the scattered index column is `[0, ..., n-1]`, and
each per-object value ends at the object's original position. -/
theorem sort_then_reorder_restores_order (n : Nat) (input : List DataElement)
    (hidx : input.map DataElement.idx = List.range n)
    (s : List DataElement) (hs : sortedByBrickId s input)
    (code : List Nat) (hlen : code.length = n) :
    (∀ j, j < n → (reorder_mask (s.map DataElement.idx)
        (s.map DataElement.idx) n)[j]! = j) ∧
    (∀ i, i < n → (reorder_mask code (s.map DataElement.idx)
        n)[(s.map DataElement.idx)[i]!]! = code[i]!) := by
  have hperm : (s.map DataElement.idx).Perm (List.range n) := by
    calc (s.map DataElement.idx).Perm (input.map DataElement.idx) := hs.1.map _
    _ = List.range n := hidx
  constructor
  · intro j hj
    have hil : (s.map DataElement.idx).length = n := by simpa using hperm.length_eq
    have hjmem : j ∈ s.map DataElement.idx :=
      hperm.mem_iff.mpr (List.mem_range.mpr hj)
    obtain ⟨i, hi, hget⟩ := List.mem_iff_getElem.mp hjmem
    have := scatter_perm_get (s.map DataElement.idx) (s.map DataElement.idx) n
      hil hperm i (by omega)
    rw [getElem!_pos (s.map DataElement.idx) i hi, hget] at this
    exact this
  · intro i hi
    exact scatter_perm_get code (s.map DataElement.idx) n hlen hperm i hi

/-- C9: `reorder_mask_reduce` truncation.  When the final mask array is
repacked to a `w`-bit storage type, each stored cell receives the low-order
`w` bits of the accumulated 64-bit mask code (reduction modulo `2^w`): the
switch succeeds for all four supported type codes and neither clamps nor
rejects oversized values. -/
theorem reorder_mask_reduce_truncates (code idx : List Nat) (n : Nat)
    (dtype w : Nat) (hw : dtypeBits dtype = some w)
    (hlen : code.length = n) (hperm : idx.Perm (List.range n)) :
    ∃ res, reorder_mask_reduce code dtype idx n = some res ∧
      ∀ i, i < n → res[idx[i]!]! = code[i]! % 2 ^ w := by
  have key : ∀ i, i < n →
      (scatterWrites (idx.zip (code.map (· % 2 ^ w)))
        (Array.mkArray n 0))[idx[i]!]! = code[i]! % 2 ^ w := by
    intro i hi
    have hlen' : (code.map (· % 2 ^ w)).length = n := by simpa using hlen
    have := scatter_perm_get (code.map (· % 2 ^ w)) idx n hlen' hperm i hi
    have hic : i < code.length := by omega
    have hmap : (code.map (· % 2 ^ w))[i]! = code[i]! % 2 ^ w := by
      rw [getElem!_pos _ i (by simpa using hic), getElem!_pos code i hic]
      simp
    rw [hmap] at this
    exact this
  by_cases h1 : dtype = TBYTE
  · subst h1
    simp only [dtypeBits, Option.some.injEq] at hw
    norm_num at hw
    subst hw
    exact ⟨_, by simp [reorder_mask_reduce], key⟩
  by_cases h2 : dtype = TSHORT
  · subst h2
    simp only [dtypeBits, TSHORT, TBYTE, Option.some.injEq] at hw
    norm_num at hw
    subst hw
    exact ⟨_, by simp [reorder_mask_reduce, TSHORT, TBYTE], key⟩
  by_cases h3 : dtype = TINT
  · subst h3
    simp only [dtypeBits, TINT, TSHORT, TBYTE, Option.some.injEq] at hw
    norm_num at hw
    subst hw
    exact ⟨_, by simp [reorder_mask_reduce, TINT, TSHORT, TBYTE], key⟩
  by_cases h4 : dtype = TLONG
  · subst h4
    simp only [dtypeBits, TLONG, TINT, TSHORT, TBYTE, Option.some.injEq] at hw
    norm_num at hw
    subst hw
    exact ⟨_, by simp [reorder_mask_reduce, TLONG, TINT, TSHORT, TBYTE], key⟩
  simp only [dtypeBits, if_neg h1, if_neg h2, if_neg h3, if_neg h4] at hw
  cases hw

theorem sort_then_reorder_restores_order_witness :
    (∀ j, j < 3 → (reorder_mask
        (List.map DataElement.idx [⟨1, 0, 1, 0⟩, ⟨2, 0, 2, 1⟩, ⟨0, 0, 0, 2⟩])
        (List.map DataElement.idx [⟨1, 0, 1, 0⟩, ⟨2, 0, 2, 1⟩, ⟨0, 0, 0, 2⟩])
        3)[j]! = j) ∧
    (∀ i, i < 3 → (reorder_mask [10, 20, 30]
        (List.map DataElement.idx [⟨1, 0, 1, 0⟩, ⟨2, 0, 2, 1⟩, ⟨0, 0, 0, 2⟩])
        3)[(List.map DataElement.idx
          [⟨1, 0, 1, 0⟩, ⟨2, 0, 2, 1⟩, ⟨0, 0, 0, 2⟩])[i]!]! = [10, 20, 30][i]!) :=
  sort_then_reorder_restores_order 3
    [⟨0, 0, 0, 2⟩, ⟨1, 0, 1, 0⟩, ⟨2, 0, 2, 1⟩] (by decide)
    [⟨1, 0, 1, 0⟩, ⟨2, 0, 2, 1⟩, ⟨0, 0, 0, 2⟩] (by decide)
    [10, 20, 30] (by decide)

theorem reorder_mask_reduce_truncates_witness :
    ∃ res, reorder_mask_reduce [300, 5] TBYTE [1, 0] 2 = some res ∧
      ∀ i, i < 2 → res[([1, 0] : List Nat)[i]!]! = ([300, 5] : List Nat)[i]! % 2 ^ 8 :=
  reorder_mask_reduce_truncates [300, 5] [1, 0] 2 TBYTE 8 (by decide) (by decide)
    (by decide)

/-! ## Brick lookup (`compare_pos`, `find_brick`, `src/get_brick.h`)

The brick table stores per-brick half-open coordinate ranges.  `find_brick`
binary-searches it with `size_t` cursors `l`, `u`; the model makes the
`size_t` wrap-around explicit (`u = i - 1` wraps to `2^64 - 1` when `i = 0`)
and reports any read of the brick arrays at an index outside `[0, n)` as
`oobRead` (undefined behaviour in the C source).  The loop is driven by fuel;
`fuelOut` never occurs for the concrete runs below. -/

def SIZE_WRAP : Nat := 2 ^ 64

structure Brick where
  ra1 : List ℚ
  ra2 : List ℚ
  dec1 : List ℚ
  dec2 : List ℚ
  n : Nat
deriving Repr

/-- `compare_pos` (`src/get_brick.h`, lines 309-316): three-way comparison of
a coordinate against a half-open rectangle, declination first. -/
def compare_pos (ra1 ra2 dec1 dec2 ra dec : ℚ) : ℤ :=
  if dec < dec1 then -1
  else if dec2 ≤ dec then 1
  else if ra < ra1 then -1
  else if ra2 ≤ ra then 1
  else 0

inductive SearchResult where
  | found (i : Nat)
  | notFound
  | oobRead (i : Nat)
  | fuelOut
deriving DecidableEq, Repr

/-- The `while (l <= u)` loop of `find_brick` with `size_t` cursors. -/
def find_brick_loop (brick : Brick) (ra dec : ℚ) :
    Nat → Nat → Nat → SearchResult
  | _, _, 0 => .fuelOut
  | l, u, fuel + 1 =>
    if l ≤ u then
      let i := ((l + u) % SIZE_WRAP) >>> 1
      if i < brick.n then
        let c := compare_pos (brick.ra1[i]!) (brick.ra2[i]!)
          (brick.dec1[i]!) (brick.dec2[i]!) ra dec
        if c > 0 then find_brick_loop brick ra dec ((i + 1) % SIZE_WRAP) u fuel
        else if c < 0 then
          find_brick_loop brick ra dec l ((i + (SIZE_WRAP - 1)) % SIZE_WRAP) fuel
        else .found i
      else .oobRead i
    else .notFound

/-- `find_brick` (`src/get_brick.h`, lines 328-343): `l = 0`,
`u = brick->n - 1` in `size_t` arithmetic. -/
def find_brick (brick : Brick) (ra dec : ℚ) : SearchResult :=
  find_brick_loop brick ra dec 0 ((brick.n + (SIZE_WRAP - 1)) % SIZE_WRAP) 200

/-- A one-brick table covering `[0,10) x [0,10)`. -/
def brickTableC3 : Brick := ⟨[0], [10], [0], [10], 1⟩

/-- C3 (code bug): for the coordinate `(5, -5)`, which lies below every
brick's declination range, the `size_t` cursor `u = i - 1` underflows at
`i = 0`, the next midpoint is `2^63 - 1`, and the loop reads the brick
arrays far outside `[0, n)` instead of returning the sentinel `-1`. -/
theorem find_brick_underflow_oob :
    find_brick brickTableC3 5 (-5) = .oobRead (2 ^ 63 - 1) := by decide

/-! ## Coordinate nudging before lookup (`get_brick_id`, `src/get_brick.h`)

`get_brick_id` (lines 354-364) preprocesses each coordinate with
`if (data->ra[i] == 360) data->ra[i] -= BRICKMASK_TOL;` and
`if (data->dec[i] == 90) data->dec[i] -= BRICKMASK_TOL;` before calling
`find_brick` (`BRICKMASK_TOL = 1e-9`, `src/define.h`). -/

def BRICKMASK_TOL : ℚ := 1 / 10 ^ 9

def get_brick_id_nudge (ra dec : ℚ) : ℚ × ℚ :=
  (if ra = 360 then ra - BRICKMASK_TOL else ra,
   if dec = 90 then dec - BRICKMASK_TOL else dec)

/-- C7 counterexample: a coordinate with `ra` exactly `360` is *not*
remapped to `0` before lookup; `get_brick_id` subtracts the tolerance
instead, yielding `360 - 10⁻⁹`. -/
theorem get_brick_id_nudge_ra360_ne_zero :
    (get_brick_id_nudge 360 45).1 ≠ 0 ∧
    (get_brick_id_nudge 360 45).1 = 360 - 1 / 10 ^ 9 := by
  norm_num [get_brick_id_nudge, BRICKMASK_TOL]

/-- C7 (amended): before brick lookup, `get_brick_id` lowers `ra == 360` by
the tolerance `10⁻⁹` (to `360 - 10⁻⁹`, not to `0`) and lowers `dec == 90` by
the same tolerance, so a boundary coordinate lands strictly inside the
half-open interval convention: `compare_pos` places the nudged corner
coordinate inside a brick whose ranges end at `ra = 360`, `dec = 90`. -/
theorem get_brick_id_nudge_boundary (ra dec : ℚ) (hra : ra = 360)
    (hdec : dec = 90) :
    get_brick_id_nudge ra dec = (360 - BRICKMASK_TOL, 90 - BRICKMASK_TOL) ∧
    (get_brick_id_nudge ra dec).1 < 360 ∧
    (get_brick_id_nudge ra dec).2 < 90 ∧
    compare_pos 350 360 80 90 (get_brick_id_nudge ra dec).1
      (get_brick_id_nudge ra dec).2 = 0 := by
  subst hra hdec
  refine ⟨rfl, by norm_num [get_brick_id_nudge, BRICKMASK_TOL], ?_, ?_⟩
  · norm_num [get_brick_id_nudge, BRICKMASK_TOL]
  · norm_num [get_brick_id_nudge, BRICKMASK_TOL, compare_pos]

theorem get_brick_id_nudge_boundary_witness :
    get_brick_id_nudge 360 90 = (360 - BRICKMASK_TOL, 90 - BRICKMASK_TOL) ∧
    (get_brick_id_nudge 360 90).1 < 360 ∧
    (get_brick_id_nudge 360 90).2 < 90 ∧
    compare_pos 350 360 80 90 (get_brick_id_nudge 360 90).1
      (get_brick_id_nudge 360 90).2 = 0 :=
  get_brick_id_nudge_boundary 360 90 rfl rfl

/-! ## Tangent-plane projection (`world2pix`, `src/assign_mask.c`)

`world2pix` works on IEEE doubles.  The model uses exact reals and makes
non-finiteness explicit: `fdiv` returns `none` on division by zero (the IEEE
computation produces `Inf`/`NaN` there and the final pixel pair is not
finite), and every subsequent operation propagates `none`.  The constants
`DEGREE_2_RAD`/`RAD_2_DEGREE` (`src/define.h`) are taken at the exact
rational values of the hex doubles of the source; the trigonometric
functions, the square root and all intermediate arithmetic are exact, so
the model does not track the IEEE rounding of the intermediate results. -/

/-- `DEGREE_2_RAD` (`src/define.h`): the hex double `0x1.1df46a2529d39p-6`
(the double nearest `pi/180`), i.e. `(2^52 + 0x1df46a2529d39) / 2^58`,
modelled at its exact rational value. -/
noncomputable def DEGREE_2_RAD : ℝ := 5030569068109113 / 288230376151711744

/-- `RAD_2_DEGREE` (`src/define.h`): the hex double `0x1.ca5dc1a63c1f8p+5`
(the double nearest `180/pi`), i.e. `(2^52 + 0xca5dc1a63c1f8) / 2^47`,
modelled at its exact rational value. -/
noncomputable def RAD_2_DEGREE : ℝ := 8063664102031864 / 140737488355328

/-- Division with explicit capture of the IEEE non-finite result of a zero
denominator. -/
noncomputable def fdiv (a b : ℝ) : Option ℝ :=
  if b = 0 then none else some (a / b)

/-- WCS parameters as stored by `read_wcs_header` (`io/read_fits.c`):
the eight trigonometric coefficients of the reference coordinate, the
reference pixel, the linear matrix and its inverse determinant. -/
structure WCS where
  ang0 : ℝ
  ang1 : ℝ
  ang2 : ℝ
  ang3 : ℝ
  ang4 : ℝ
  ang5 : ℝ
  ang6 : ℝ
  ang7 : ℝ
  r0 : ℝ
  r1 : ℝ
  m00 : ℝ
  m01 : ℝ
  m10 : ℝ
  m11 : ℝ
  idetm : ℝ

/-- `read_wcs_header` (`io/read_fits.c`, lines 347-385): precompute the
trigonometric coefficients from `CRVAL1/CRVAL2` and reject a singular
linear matrix. -/
noncomputable def read_wcs_header (crval1 crval2 r0 r1 m00 m01 m10 m11 : ℝ) :
    Option WCS :=
  let a0 := crval1 * DEGREE_2_RAD
  let a1 := crval2 * DEGREE_2_RAD
  let sina := Real.sin a0
  let cosa := Real.cos a0
  let sind := Real.sin a1
  let cosd := Real.cos a1
  let det := m00 * m11 - m01 * m10
  if det = 0 then none
  else some ⟨sind, cosa * cosd, sina * cosd, -cosd, cosa * sind, sina * sind,
    -sina, cosa, r0, r1, m00, m01, m10, m11, 1 / det⟩

/-- The direction-cosine term `theta` computed by `world2pix`. -/
noncomputable def w2pTheta (wcs : WCS) (ra dec : ℝ) : ℝ :=
  let r := ra * DEGREE_2_RAD
  let d := dec * DEGREE_2_RAD
  Real.sin d * wcs.ang0 + (Real.cos r * Real.cos d) * wcs.ang1 +
    (Real.sin r * Real.cos d) * wcs.ang2

/-- The tangent-plane component `phi1` computed by `world2pix`. -/
noncomputable def w2pPhi1 (wcs : WCS) (ra dec : ℝ) : ℝ :=
  let r := ra * DEGREE_2_RAD
  let d := dec * DEGREE_2_RAD
  Real.sin d * wcs.ang3 + (Real.cos r * Real.cos d) * wcs.ang4 +
    (Real.sin r * Real.cos d) * wcs.ang5

/-- The tangent-plane component `phi2` computed by `world2pix`. -/
noncomputable def w2pPhi2 (wcs : WCS) (ra dec : ℝ) : ℝ :=
  let r := ra * DEGREE_2_RAD
  let d := dec * DEGREE_2_RAD
  (Real.cos r * Real.cos d) * wcs.ang6 + (Real.sin r * Real.cos d) * wcs.ang7

/-- The saturated scale factor of `world2pix`: `0` when the pole guard
fires, otherwise `sqrt(1 - theta^2) / theta * RAD_2_DEGREE` with the zero
denominator captured. -/
noncomputable def w2pThetaS (wcs : WCS) (ra dec : ℝ) : Option ℝ :=
  if 1 ≤ w2pTheta wcs ra dec ∨ w2pTheta wcs ra dec ≤ -1 then some 0
  else (fdiv (Real.sqrt (1 - w2pTheta wcs ra dec * w2pTheta wcs ra dec))
    (w2pTheta wcs ra dec)).map (· * RAD_2_DEGREE)

/-- The intermediate scale `fac` of `world2pix`, with its degenerate-case
guard `phi1 == 0 && phi2 == 0`. -/
noncomputable def w2pFac (wcs : WCS) (ra dec : ℝ) : Option ℝ :=
  if w2pPhi1 wcs ra dec = 0 ∧ w2pPhi2 wcs ra dec = 0 then some 0
  else (w2pThetaS wcs ra dec).bind (fun t =>
    fdiv t (Real.sqrt (w2pPhi1 wcs ra dec * w2pPhi1 wcs ra dec +
      w2pPhi2 wcs ra dec * w2pPhi2 wcs ra dec)))

/-- `world2pix` (`src/assign_mask.c`, lines 88-113) with explicit
non-finiteness: `none` marks an IEEE `Inf`/`NaN` pixel pair. -/
noncomputable def world2pix (wcs : WCS) (ra dec : ℝ) : Option (ℝ × ℝ) :=
  (w2pFac wcs ra dec).map (fun f =>
    let xx := f * w2pPhi2 wcs ra dec
    let yy := -f * w2pPhi1 wcs ra dec
    ((xx * wcs.m11 - yy * wcs.m01) * wcs.idetm + wcs.r0 - 1,
     (-xx * wcs.m10 + yy * wcs.m00) * wcs.idetm + wcs.r1 - 1))

/-- The WCS produced by `read_wcs_header` for `CRVAL = (0, 0)`,
`CRPIX = (1, 1)` and the identity matrix (determinant 1, nonzero). -/
def wcsTangent00 : WCS := ⟨0, 1, 0, -1, 0, 0, 0, 1, 1, 1, 1, 0, 0, 1, 1⟩

/-- `world2pix` returns a finite pixel pair whenever `theta /= 0`, and also
in the guarded degenerate case `phi1 = phi2 = 0`: in this model the only
possible non-finite outcome is the division at an exactly zero `theta` with
a nonzero tangent-plane component.  Whether the program ever computes an
IEEE double `theta` equal to `0.0` at runtime depends on the rounding of the
libm trigonometric calls, which the exact-real model does not track. -/
theorem world2pix_total_unless_theta_zero (wcs : WCS) (ra dec : ℝ)
    (h : w2pTheta wcs ra dec ≠ 0 ∨
      (w2pPhi1 wcs ra dec = 0 ∧ w2pPhi2 wcs ra dec = 0)) :
    ∃ p, world2pix wcs ra dec = some p := by
  unfold world2pix
  have hfac : ∃ f, w2pFac wcs ra dec = some f := by
    unfold w2pFac
    by_cases hphi : w2pPhi1 wcs ra dec = 0 ∧ w2pPhi2 wcs ra dec = 0
    · rw [if_pos hphi]
      exact ⟨_, rfl⟩
    · rw [if_neg hphi]
      have htheta : w2pTheta wcs ra dec ≠ 0 := h.resolve_right hphi
      have hsq : Real.sqrt (w2pPhi1 wcs ra dec * w2pPhi1 wcs ra dec +
          w2pPhi2 wcs ra dec * w2pPhi2 wcs ra dec) ≠ 0 := by
        have hpos : 0 < w2pPhi1 wcs ra dec * w2pPhi1 wcs ra dec +
            w2pPhi2 wcs ra dec * w2pPhi2 wcs ra dec := by
          rcases not_and_or.mp hphi with h1 | h2
          · have := mul_self_pos.mpr h1
            nlinarith [mul_self_nonneg (w2pPhi2 wcs ra dec)]
          · have := mul_self_pos.mpr h2
            nlinarith [mul_self_nonneg (w2pPhi1 wcs ra dec)]
        positivity
      unfold w2pThetaS
      by_cases hguard : 1 ≤ w2pTheta wcs ra dec ∨ w2pTheta wcs ra dec ≤ -1
      · rw [if_pos hguard]
        simp only [Option.some_bind, fdiv, if_neg hsq]
        exact ⟨_, rfl⟩
      · rw [if_neg hguard]
        simp only [fdiv, if_neg htheta, Option.map_some', Option.some_bind,
          if_neg hsq]
        exact ⟨_, rfl⟩
  obtain ⟨f, hf⟩ := hfac
  rw [hf]
  exact ⟨_, rfl⟩

theorem world2pix_total_unless_theta_zero_witness :
    ∃ p, world2pix wcsTangent00 0 0 = some p := by
  refine world2pix_total_unless_theta_zero wcsTangent00 0 0 (Or.inl ?_)
  have h0 : (0 : ℝ) * DEGREE_2_RAD = 0 := by ring
  unfold w2pTheta
  rw [h0]
  simp [wcsTangent00]

/-! ## EBOSS bit-code assignment (`src/bit_code.c`)

The template function `assign_bitcode_<dtype>` iterates over one brick group
`[imin, imax)`, projects each object with `world2pix`, reads the maskbit at
the rounded pixel, applies the EBOSS validity filter and the xybug
correction (re-deriving the bit-4 contribution from the truncated pixel),
and mutates `data->mask` in place.  The model keeps the mutated state even
on the fatal out-of-bounds paths (the C data is mutated in place before the
error return aborts the run).  The per-file WCS projection is carried as the
`pix` field of the mask structure (`world2pix(mask->wcs, ., .)`); the bit
logic only consumes the resulting pixel coordinates. -/

/-- C `round()` (round half away from zero), applied to the pixel coordinate
before the bounds check. -/
def cround (q : ℚ) : ℤ := if 0 ≤ q then ⌊q + 1 / 2⌋ else -⌊-q + 1 / 2⌋

/-- C `(long)` cast: truncation toward zero, used for the xybug lookup. -/
def ctrunc (q : ℚ) : ℤ := if 0 ≤ q then ⌊q⌋ else -⌊-q⌋

/-- `EBOSS_XYBUG_BIT` (`src/define.h`, line 104). -/
def EBOSS_XYBUG_BIT : Nat := 4

/-- `BRICKMASK_ERR_MASK` (`src/define.h`). -/
def BRICKMASK_ERR_MASK : ℤ := -6

/-- `EBOSS_MASK_VALID(bit) = (bit) & 1` (`src/define.h`, line 103),
used as a C truth value. -/
def EBOSS_MASK_VALID (bit : Nat) : Bool := bit &&& 1 != 0

/-- `EBOSS_XYBUG_VALID(bit) = (bit) & EBOSS_XYBUG_BIT` (`src/define.h`,
line 105), used as a C truth value. -/
def EBOSS_XYBUG_VALID (bit : Nat) : Bool := bit &&& EBOSS_XYBUG_BIT != 0

/-- Maskbit image state for one brick group (`MASK` in `assign_mask.h`):
dimensions, raw pixel values, and the projection induced by the file's WCS
header. -/
structure MaskE where
  dim0 : ℤ
  dim1 : ℤ
  bits : List Nat
  pix : ℚ → ℚ → ℚ × ℚ

/-- The catalogue columns touched by `assign_bitcode`. -/
structure DataE where
  ra : List ℚ
  dec : List ℚ
  mask : List Nat
  subid : Option (List Nat)

def setMask (d : DataE) (i : Nat) (v : Nat) : DataE :=
  { d with mask := d.mask.set i v }

def setSubid (d : DataE) (i : Nat) (v : Nat) : DataE :=
  match d.subid with
  | some s => { d with subid := some (s.set i v) }
  | none => d

/-- The rounded pixel indices of object `i`. -/
def roundedPix (mask : MaskE) (d : DataE) (i : Nat) : ℤ × ℤ :=
  (cround (mask.pix d.ra[i]! d.dec[i]!).1, cround (mask.pix d.ra[i]! d.dec[i]!).2)

/-- The truncated pixel indices of object `i`. -/
def truncPix (mask : MaskE) (d : DataE) (i : Nat) : ℤ × ℤ :=
  (ctrunc (mask.pix d.ra[i]! d.dec[i]!).1, ctrunc (mask.pix d.ra[i]! d.dec[i]!).2)

/-- The maskbit value read at the rounded pixel of object `i`. -/
def roundedPixBit (mask : MaskE) (d : DataE) (i : Nat) : Nat :=
  mask.bits[((roundedPix mask d i).1 + (roundedPix mask d i).2 * mask.dim0).toNat]!

/-- The maskbit value read at the truncated pixel of object `i`. -/
def truncPixBit (mask : MaskE) (d : DataE) (i : Nat) : Nat :=
  mask.bits[((truncPix mask d i).1 + (truncPix mask d i).2 * mask.dim0).toNat]!

/-- The fatal bounds-check condition of `assign_bitcode` on the rounded
pixel (`rx < 0 || rx >= mask->dim[0] || ry < 0 || ry >= mask->dim[1]`). -/
def roundedOOB (mask : MaskE) (d : DataE) (i : Nat) : Prop :=
  (roundedPix mask d i).1 < 0 ∨ mask.dim0 ≤ (roundedPix mask d i).1 ∨
  (roundedPix mask d i).2 < 0 ∨ mask.dim1 ≤ (roundedPix mask d i).2

instance (mask : MaskE) (d : DataE) (i : Nat) : Decidable (roundedOOB mask d i) := by
  unfold roundedOOB; infer_instance

/-- The same condition on the truncated pixel. -/
def truncOOB (mask : MaskE) (d : DataE) (i : Nat) : Prop :=
  (truncPix mask d i).1 < 0 ∨ mask.dim0 ≤ (truncPix mask d i).1 ∨
  (truncPix mask d i).2 < 0 ∨ mask.dim1 ≤ (truncPix mask d i).2

instance (mask : MaskE) (d : DataE) (i : Nat) : Decidable (truncOOB mask d i) := by
  unfold truncOOB; infer_instance

/-- The first mask write of an `assign_bitcode` iteration:
`data->mask[i] += bit - EBOSS_XYBUG_BIT` when the rounded-pixel bit has the
xybug flag, `data->mask[i] += bit` otherwise. -/
def xybugWrite1 (mask : MaskE) (d : DataE) (i : Nat) : DataE :=
  if EBOSS_XYBUG_VALID (roundedPixBit mask d i)
  then setMask d i (d.mask[i]! + (roundedPixBit mask d i - EBOSS_XYBUG_BIT))
  else setMask d i (d.mask[i]! + roundedPixBit mask d i)

/-- The second mask write: `data->mask[i] += EBOSS_XYBUG_BIT` when the
truncated-pixel bit has the xybug flag.  `d1` is the state after the first
write; the pixel is still read from the original coordinates `d`. -/
def xybugWrite2 (mask : MaskE) (d1 d : DataE) (i : Nat) : DataE :=
  if EBOSS_XYBUG_VALID (truncPixBit mask d i)
  then setMask d1 i (d1.mask[i]! + EBOSS_XYBUG_BIT)
  else d1

/-- One iteration of the `assign_bitcode` loop (EBOSS branch of
`src/bit_code.c`, lines 46-78) for object `i`: returns the (possibly
mutated) state and `some BRICKMASK_ERR_MASK` on the fatal paths. -/
def assign_bitcode_step (mask : MaskE) (d : DataE) (i : Nat) (subid : Nat) :
    DataE × Option ℤ :=
  if roundedOOB mask d i then (d, some BRICKMASK_ERR_MASK)
  else if ¬ EBOSS_MASK_VALID (roundedPixBit mask d i) then (d, none)
  else if truncOOB mask d i then (xybugWrite1 mask d i, some BRICKMASK_ERR_MASK)
  else (setSubid (xybugWrite2 mask (xybugWrite1 mask d i) d i) i subid, none)

/-- The `for (i = imin; i < imax; i++)` loop of `assign_bitcode`, aborting
at the first fatal iteration. -/
def assign_bitcode_loop (mask : MaskE) (subid : Nat) (imax : Nat)
    (d : DataE) (i : Nat) : DataE × Option ℤ :=
  if _h : i < imax then
    match assign_bitcode_step mask d i subid with
    | (d1, some e) => (d1, some e)
    | (d1, none) => assign_bitcode_loop mask subid imax d1 (i + 1)
  else (d, none)
termination_by imax - i

/-- `assign_bitcode_<dtype>` (`src/bit_code.c`): process objects
`[imin, imax)` of the brick group. -/
def assign_bitcode (mask : MaskE) (d : DataE) (imin imax : Nat)
    (subid : Nat) : DataE × Option ℤ :=
  assign_bitcode_loop mask subid imax d imin

theorem list_set_get_other (l : List Nat) (i j v : Nat) (hne : j ≠ i) :
    (l.set i v)[j]! = l[j]! := by
  by_cases hj : j < l.length
  · rw [getElem!_pos (l.set i v) j (by simpa using hj), getElem!_pos l j hj]
    exact List.getElem_set_ne (fun hh => hne hh.symm) _
  · rw [getElem!_neg (l.set i v) j (by simpa using hj), getElem!_neg l j hj]

theorem list_set_get_self (l : List Nat) (i v : Nat) (hi : i < l.length) :
    (l.set i v)[i]! = v := by
  rw [getElem!_pos (l.set i v) i (by simpa using hi)]
  simp

theorem setMask_ra (d : DataE) (i v : Nat) : (setMask d i v).ra = d.ra := rfl

theorem setMask_dec (d : DataE) (i v : Nat) : (setMask d i v).dec = d.dec := rfl

theorem setSubid_ra (d : DataE) (i v : Nat) : (setSubid d i v).ra = d.ra := by
  unfold setSubid; cases d.subid <;> rfl

theorem setSubid_dec (d : DataE) (i v : Nat) : (setSubid d i v).dec = d.dec := by
  unfold setSubid; cases d.subid <;> rfl

theorem setSubid_mask (d : DataE) (i v : Nat) : (setSubid d i v).mask = d.mask := by
  unfold setSubid; cases d.subid <;> rfl

theorem xybugWrite1_ra (m : MaskE) (d : DataE) (i : Nat) :
    (xybugWrite1 m d i).ra = d.ra := by
  unfold xybugWrite1; split_ifs <;> rfl

theorem xybugWrite1_dec (m : MaskE) (d : DataE) (i : Nat) :
    (xybugWrite1 m d i).dec = d.dec := by
  unfold xybugWrite1; split_ifs <;> rfl

theorem xybugWrite1_mask_len (m : MaskE) (d : DataE) (i : Nat) :
    (xybugWrite1 m d i).mask.length = d.mask.length := by
  unfold xybugWrite1; split_ifs <;> simp [setMask]

theorem xybugWrite1_mask_other (m : MaskE) (d : DataE) (i j : Nat)
    (hne : j ≠ i) : (xybugWrite1 m d i).mask[j]! = d.mask[j]! := by
  unfold xybugWrite1
  split_ifs <;> simp [setMask, list_set_get_other _ _ _ _ hne]

theorem xybugWrite2_ra (m : MaskE) (d1 d : DataE) (i : Nat) :
    (xybugWrite2 m d1 d i).ra = d1.ra := by
  unfold xybugWrite2; split_ifs <;> rfl

theorem xybugWrite2_dec (m : MaskE) (d1 d : DataE) (i : Nat) :
    (xybugWrite2 m d1 d i).dec = d1.dec := by
  unfold xybugWrite2; split_ifs <;> rfl

theorem xybugWrite2_mask_len (m : MaskE) (d1 d : DataE) (i : Nat) :
    (xybugWrite2 m d1 d i).mask.length = d1.mask.length := by
  unfold xybugWrite2; split_ifs <;> simp [setMask]

theorem xybugWrite2_mask_other (m : MaskE) (d1 d : DataE) (i j : Nat)
    (hne : j ≠ i) : (xybugWrite2 m d1 d i).mask[j]! = d1.mask[j]! := by
  unfold xybugWrite2
  split_ifs <;> simp [setMask, list_set_get_other _ _ _ _ hne]

theorem assign_bitcode_step_ra (m : MaskE) (d : DataE) (i s : Nat) :
    (assign_bitcode_step m d i s).1.ra = d.ra := by
  unfold assign_bitcode_step
  split_ifs <;> simp [setSubid_ra, xybugWrite2_ra, xybugWrite1_ra]

theorem assign_bitcode_step_dec (m : MaskE) (d : DataE) (i s : Nat) :
    (assign_bitcode_step m d i s).1.dec = d.dec := by
  unfold assign_bitcode_step
  split_ifs <;> simp [setSubid_dec, xybugWrite2_dec, xybugWrite1_dec]

theorem assign_bitcode_step_mask_len (m : MaskE) (d : DataE) (i s : Nat) :
    (assign_bitcode_step m d i s).1.mask.length = d.mask.length := by
  unfold assign_bitcode_step
  split_ifs <;>
    simp [setSubid_mask, xybugWrite2_mask_len, xybugWrite1_mask_len]

theorem assign_bitcode_step_mask_other (m : MaskE) (d : DataE) (i s j : Nat)
    (hne : j ≠ i) :
    (assign_bitcode_step m d i s).1.mask[j]! = d.mask[j]! := by
  unfold assign_bitcode_step
  split_ifs <;>
    simp [setSubid_mask, xybugWrite2_mask_other _ _ _ _ _ hne,
      xybugWrite1_mask_other _ _ _ _ hne]

theorem assign_bitcode_step_err (m : MaskE) (d : DataE) (i s : Nat) (e : ℤ)
    (he : (assign_bitcode_step m d i s).2 = some e) : e = BRICKMASK_ERR_MASK := by
  unfold assign_bitcode_step at he
  split_ifs at he <;> simp_all

/-- Field preservation along the `assign_bitcode` loop: coordinates are
read-only, the mask column keeps its length, and no entry outside the
processed range `[i, imax)` is written. -/
theorem assign_bitcode_loop_fields (m : MaskE) (s imax : Nat) :
    ∀ n (d : DataE) i, imax - i ≤ n →
      (assign_bitcode_loop m s imax d i).1.ra = d.ra ∧
      (assign_bitcode_loop m s imax d i).1.dec = d.dec ∧
      (assign_bitcode_loop m s imax d i).1.mask.length = d.mask.length ∧
      ∀ k, k < i ∨ imax ≤ k →
        (assign_bitcode_loop m s imax d i).1.mask[k]! = d.mask[k]! := by
  intro n
  induction n with
  | zero =>
    intro d i hn
    have hge : ¬ i < imax := by omega
    rw [assign_bitcode_loop, dif_neg hge]
    exact ⟨rfl, rfl, rfl, fun k _ => rfl⟩
  | succ n ih =>
    intro d i hn
    by_cases hlt : i < imax
    · rw [assign_bitcode_loop, dif_pos hlt]
      rcases hstep : assign_bitcode_step m d i s with ⟨d1, oe⟩
      have hra : d1.ra = d.ra := by
        have := assign_bitcode_step_ra m d i s; rw [hstep] at this; exact this
      have hdec : d1.dec = d.dec := by
        have := assign_bitcode_step_dec m d i s; rw [hstep] at this; exact this
      have hml : d1.mask.length = d.mask.length := by
        have := assign_bitcode_step_mask_len m d i s; rw [hstep] at this
        exact this
      have hmo : ∀ k, k ≠ i → d1.mask[k]! = d.mask[k]! := by
        intro k hk
        have := assign_bitcode_step_mask_other m d i s k hk
        rw [hstep] at this; exact this
      cases oe with
      | some e =>
        exact ⟨hra, hdec, hml, fun k hk => hmo k (by omega)⟩
      | none =>
        have hrec := ih d1 (i + 1) (by omega)
        refine ⟨hrec.1.trans hra, hrec.2.1.trans hdec, hrec.2.2.1.trans hml, ?_⟩
        intro k hk
        have h1 := hrec.2.2.2 k (by omega)
        rw [h1, hmo k (by omega)]
    · rw [assign_bitcode_loop, dif_neg hlt]
      exact ⟨rfl, rfl, rfl, fun k _ => rfl⟩

/-- Splitting the `assign_bitcode` loop at a clean intermediate index. -/
theorem assign_bitcode_loop_split (m : MaskE) (s j imax : Nat) (hj : j ≤ imax) :
    ∀ n (d : DataE) i, j - i ≤ n → i ≤ j →
      (assign_bitcode_loop m s j d i).2 = none →
      assign_bitcode_loop m s imax d i =
        assign_bitcode_loop m s imax (assign_bitcode_loop m s j d i).1 j := by
  intro n
  induction n with
  | zero =>
    intro d i hn hij _
    have hii : i = j := by omega
    subst hii
    have hpref : assign_bitcode_loop m s i d i = (d, none) := by
      rw [assign_bitcode_loop, dif_neg (by omega)]
    rw [hpref]
  | succ n ih =>
    intro d i hn hij hclean
    by_cases hlt : i < j
    · have hlt2 : i < imax := by omega
      have hunfj : assign_bitcode_loop m s j d i =
          match assign_bitcode_step m d i s with
          | (d1, some e) => (d1, some e)
          | (d1, none) => assign_bitcode_loop m s j d1 (i + 1) := by
        rw [assign_bitcode_loop, dif_pos hlt]
      have hunfm : assign_bitcode_loop m s imax d i =
          match assign_bitcode_step m d i s with
          | (d1, some e) => (d1, some e)
          | (d1, none) => assign_bitcode_loop m s imax d1 (i + 1) := by
        rw [assign_bitcode_loop, dif_pos hlt2]
      rw [hunfj] at hclean
      rw [hunfm, hunfj]
      rcases hstep : assign_bitcode_step m d i s with ⟨d1, oe⟩
      rw [hstep] at hclean
      cases oe with
      | some e => simp at hclean
      | none =>
        simp only
        exact ih d1 (i + 1) (by omega) (by omega) hclean
    · have hii : i = j := by omega
      subst hii
      have hpref : assign_bitcode_loop m s i d i = (d, none) := by
        rw [assign_bitcode_loop, dif_neg (by omega)]
      rw [hpref]

theorem roundedOOB_of_coords (m : MaskE) (d d1 : DataE) (i : Nat)
    (hra : d1.ra = d.ra) (hdec : d1.dec = d.dec) :
    roundedOOB m d1 i ↔ roundedOOB m d i := by
  unfold roundedOOB roundedPix
  rw [hra, hdec]

theorem assign_bitcode_loop_oob (m : MaskE) (s imax i : Nat) (h2 : i < imax) :
    ∀ n (d : DataE) j, j ≤ i → i - j ≤ n → roundedOOB m d i →
      (assign_bitcode_loop m s imax d j).2 = some BRICKMASK_ERR_MASK ∧
      (assign_bitcode_loop m s imax d j).1.mask[i]! = d.mask[i]! := by
  intro n
  induction n with
  | zero =>
    intro d j hji hn hoob
    have hji' : j = i := by omega
    subst hji'
    rw [assign_bitcode_loop, dif_pos h2]
    have hstep : assign_bitcode_step m d j s = (d, some BRICKMASK_ERR_MASK) := by
      unfold assign_bitcode_step
      rw [if_pos hoob]
    rw [hstep]
    exact ⟨rfl, rfl⟩
  | succ n ih =>
    intro d j hji hn hoob
    by_cases hlt : j < i
    · rw [assign_bitcode_loop, dif_pos (by omega)]
      rcases hstep : assign_bitcode_step m d j s with ⟨d1, oe⟩
      have hra : d1.ra = d.ra := by
        have := assign_bitcode_step_ra m d j s; rw [hstep] at this; exact this
      have hdec : d1.dec = d.dec := by
        have := assign_bitcode_step_dec m d j s; rw [hstep] at this; exact this
      have hmo : d1.mask[i]! = d.mask[i]! := by
        have := assign_bitcode_step_mask_other m d j s i (by omega)
        rw [hstep] at this; exact this
      cases oe with
      | some e =>
        have he : e = BRICKMASK_ERR_MASK := by
          refine assign_bitcode_step_err m d j s e ?_
          rw [hstep]
        exact ⟨by rw [he], hmo⟩
      | none =>
        have hoob1 : roundedOOB m d1 i :=
          (roundedOOB_of_coords m d d1 i hra hdec).mpr hoob
        have hrec := ih d1 (j + 1) (by omega) (by omega) hoob1
        exact ⟨hrec.1, hrec.2.trans hmo⟩
    · have hji' : j = i := by omega
      subst hji'
      rw [assign_bitcode_loop, dif_pos h2]
      have hstep : assign_bitcode_step m d j s = (d, some BRICKMASK_ERR_MASK) := by
        unfold assign_bitcode_step
        rw [if_pos hoob]
      rw [hstep]
      exact ⟨rfl, rfl⟩

/-- C6: an object whose projected coordinate, rounded to the nearest pixel,
falls outside `[0, width) x [0, height)` makes the whole bit-assignment of
the group fail with `BRICKMASK_ERR_MASK` (the fatal bounds check in
`src/bit_code.c` precedes every mask read), and that object's `mask_code` is
never updated from the pixel — there is no per-object recovery. -/
theorem assign_bitcode_oob_fatal (m : MaskE) (d : DataE)
    (imin imax i subid : Nat) (h1 : imin ≤ i) (h2 : i < imax)
    (hoob : roundedOOB m d i) :
    (assign_bitcode m d imin imax subid).2 = some BRICKMASK_ERR_MASK ∧
    (assign_bitcode m d imin imax subid).1.mask[i]! = d.mask[i]! := by
  unfold assign_bitcode
  exact assign_bitcode_loop_oob m subid imax i h2 (i - imin) d imin h1
    (by omega) hoob

theorem assign_bitcode_oob_fatal_witness :
    (assign_bitcode ⟨1, 1, [0], fun _ _ => (5, 5)⟩ ⟨[0], [0], [7], none⟩
      0 1 0).2 = some BRICKMASK_ERR_MASK ∧
    (assign_bitcode ⟨1, 1, [0], fun _ _ => (5, 5)⟩ ⟨[0], [0], [7], none⟩
      0 1 0).1.mask[0]! = (DataE.mask ⟨[0], [0], [7], none⟩)[0]! :=
  assign_bitcode_oob_fatal ⟨1, 1, [0], fun _ _ => (5, 5)⟩ ⟨[0], [0], [7], none⟩
    0 1 0 0 (by decide) (by decide)
    (by norm_num [roundedOOB, roundedPix, cround])

theorem roundedPixBit_of_coords (m : MaskE) (d d1 : DataE) (i : Nat)
    (hra : d1.ra = d.ra) (hdec : d1.dec = d.dec) :
    roundedPixBit m d1 i = roundedPixBit m d i := by
  unfold roundedPixBit roundedPix
  rw [hra, hdec]

theorem truncPixBit_of_coords (m : MaskE) (d d1 : DataE) (i : Nat)
    (hra : d1.ra = d.ra) (hdec : d1.dec = d.dec) :
    truncPixBit m d1 i = truncPixBit m d i := by
  unfold truncPixBit truncPix
  rw [hra, hdec]

theorem truncOOB_of_coords (m : MaskE) (d d1 : DataE) (i : Nat)
    (hra : d1.ra = d.ra) (hdec : d1.dec = d.dec) :
    truncOOB m d1 i ↔ truncOOB m d i := by
  unfold truncOOB truncPix
  rw [hra, hdec]

/-- Subtracting the xybug flag from a value that carries it clears exactly
that flag: the bit-2 contribution of `b - 4` is zero. -/
theorem sub_xybug_clears_flag (b : Nat) (h : b &&& EBOSS_XYBUG_BIT ≠ 0) :
    (b - EBOSS_XYBUG_BIT) &&& EBOSS_XYBUG_BIT = 0 := by
  have h4 : b &&& 4 ≠ 0 := h
  have e1 : b &&& 4 = (b.testBit 2).toNat * 4 := by
    have := Nat.and_two_pow b 2; norm_num at this; exact this
  have e2 : (b - 4) &&& 4 = ((b - 4).testBit 2).toNat * 4 := by
    have := Nat.and_two_pow (b - 4) 2; norm_num at this; exact this
  have h1 : b.testBit 2 = true := by
    rcases hb : b.testBit 2 with _ | _
    · rw [hb] at e1; simp at e1; exact absurd e1 h4
    · rfl
  have hd1 : b / 4 % 2 = 1 := by
    rw [Nat.testBit_to_div_mod] at h1
    norm_num at h1
    exact h1
  have hd2 : (b - 4) / 4 % 2 = 0 := by omega
  have h2' : (b - 4).testBit 2 = false := by
    rw [Nat.testBit_to_div_mod]
    norm_num [hd2]
  show (b - 4) &&& 4 = 0
  rw [e2, h2']
  rfl

/-- C4: the xybug correction.  For an object reached by the loop whose
rounded pixel is in bounds with a mask value passing the EBOSS validity
filter (`bit & 1`) and carrying the xybug flag (`bit & 4`), while the
bounds-checked truncated pixel's mask value does not carry the flag, the
amount added to the object's `mask_code` is exactly `bit - 4`: the
bit-2/value-4 contribution of the rounded pixel is subtracted and not
re-added, so the final bit-4 contribution is `0`, not `4`. -/
theorem assign_bitcode_xybug_zero_contribution (m : MaskE) (d : DataE)
    (imin imax i subid : Nat) (h1 : imin ≤ i) (h2 : i < imax)
    (hilen : i < d.mask.length)
    (hpre : (assign_bitcode m d imin i subid).2 = none)
    (hin : ¬ roundedOOB m d i)
    (hvalid : EBOSS_MASK_VALID (roundedPixBit m d i) = true)
    (hxy : EBOSS_XYBUG_VALID (roundedPixBit m d i) = true)
    (htin : ¬ truncOOB m d i)
    (htxy : EBOSS_XYBUG_VALID (truncPixBit m d i) = false) :
    (assign_bitcode m d imin imax subid).1.mask[i]! =
      d.mask[i]! + (roundedPixBit m d i - EBOSS_XYBUG_BIT) ∧
    (roundedPixBit m d i - EBOSS_XYBUG_BIT) &&& EBOSS_XYBUG_BIT = 0 := by
  unfold assign_bitcode at hpre ⊢
  have hfields := assign_bitcode_loop_fields m subid i (i - imin + 1) d imin
    (by omega)
  set dp := (assign_bitcode_loop m subid i d imin).1 with hdp
  have hra : dp.ra = d.ra := hfields.1
  have hdec : dp.dec = d.dec := hfields.2.1
  have hmlen : dp.mask.length = d.mask.length := hfields.2.2.1
  have hmi : dp.mask[i]! = d.mask[i]! := hfields.2.2.2 i (Or.inr le_rfl)
  have hsplit := assign_bitcode_loop_split m subid i imax (le_of_lt h2)
    (i - imin + 1) d imin (by omega) h1 hpre
  rw [hsplit]
  have hrb : roundedPixBit m dp i = roundedPixBit m d i :=
    roundedPixBit_of_coords m d dp i hra hdec
  have htb : truncPixBit m dp i = truncPixBit m d i :=
    truncPixBit_of_coords m d dp i hra hdec
  have hstep : assign_bitcode_step m dp i subid =
      (setSubid (setMask dp i (dp.mask[i]! +
        (roundedPixBit m d i - EBOSS_XYBUG_BIT))) i subid, none) := by
    unfold assign_bitcode_step
    rw [if_neg ((roundedOOB_of_coords m d dp i hra hdec).not.mpr hin)]
    rw [if_neg (by rw [hrb]; simp [hvalid])]
    rw [if_neg ((truncOOB_of_coords m d dp i hra hdec).not.mpr htin)]
    have hw2 : xybugWrite2 m (xybugWrite1 m dp i) dp i = xybugWrite1 m dp i := by
      unfold xybugWrite2
      rw [htb, if_neg (by simp [htxy])]
    have hw1 : xybugWrite1 m dp i =
        setMask dp i (dp.mask[i]! + (roundedPixBit m d i - EBOSS_XYBUG_BIT)) := by
      unfold xybugWrite1
      rw [hrb, if_pos (by simp [hxy])]
    rw [hw2, hw1]
  have hloop : assign_bitcode_loop m subid imax dp i =
      assign_bitcode_loop m subid imax
        (setSubid (setMask dp i (dp.mask[i]! +
          (roundedPixBit m d i - EBOSS_XYBUG_BIT))) i subid) (i + 1) := by
    rw [assign_bitcode_loop, dif_pos h2, hstep]
  rw [hloop]
  have hfin := assign_bitcode_loop_fields m subid imax (imax - (i + 1) + 1)
    (setSubid (setMask dp i (dp.mask[i]! +
      (roundedPixBit m d i - EBOSS_XYBUG_BIT))) i subid) (i + 1) (by omega)
  have hget := hfin.2.2.2 i (Or.inl (by omega))
  rw [hget, setSubid_mask]
  constructor
  · show (dp.mask.set i _)[i]! = _
    rw [list_set_get_self dp.mask i _ (by omega), hmi]
  · refine sub_xybug_clears_flag (roundedPixBit m d i) ?_
    unfold EBOSS_XYBUG_VALID at hxy
    simpa using hxy

/-- A 2x1 maskbit image whose projection sends every coordinate to pixel
`(0.5, 0)`: the rounded pixel is `(1, 0)` (bit value `5`, valid with the
xybug flag), the truncated pixel is `(0, 0)` (bit value `0`). -/
def maskC4 : MaskE := ⟨2, 1, [0, 5], fun _ _ => (1 / 2, 0)⟩

def dataC4 : DataE := ⟨[0], [0], [7], none⟩

theorem assign_bitcode_xybug_zero_contribution_witness :
    (assign_bitcode maskC4 dataC4 0 1 0).1.mask[0]! =
      (DataE.mask dataC4)[0]! +
        (roundedPixBit maskC4 dataC4 0 - EBOSS_XYBUG_BIT) ∧
    (roundedPixBit maskC4 dataC4 0 - EBOSS_XYBUG_BIT) &&& EBOSS_XYBUG_BIT = 0 :=
  assign_bitcode_xybug_zero_contribution maskC4 dataC4 0 1 0 0
    (by decide) (by decide) (by decide)
    (by unfold assign_bitcode; rw [assign_bitcode_loop, dif_neg (by decide)])
    (by norm_num [roundedOOB, roundedPix, cround, maskC4, dataC4])
    (by norm_num [EBOSS_MASK_VALID, roundedPixBit, roundedPix, cround,
      maskC4, dataC4])
    (by norm_num [EBOSS_XYBUG_VALID, EBOSS_XYBUG_BIT, roundedPixBit,
      roundedPix, cround, maskC4, dataC4]; decide)
    (by norm_num [truncOOB, truncPix, ctrunc, maskC4, dataC4])
    (by norm_num [EBOSS_XYBUG_VALID, EBOSS_XYBUG_BIT, truncPixBit,
      truncPix, ctrunc, maskC4, dataC4])

/-! ## Group-wise mask assignment (`assign_mask`, `src/assign_mask.c`)

`assign_mask` walks the brick-sorted catalogue in contiguous equal-brick-id
groups.  For each group it resolves the maskbits filename and three
`nexp-g/r/z` filenames from the brick's photometric-region tag and name and
calls `assign_mask_from_file` on the group's slice of each column.  The
filesystem is abstracted as a map from filenames to `absent` (the
`access(fname, R_OK)` failure), `unreadable` (`read_mask` fails), or a
parsed image.  The `MASK` structure's persistent per-kind `dtype` slots are
threaded through the loop and combined with the catalogue's initial type
codes once, after the loop. -/

/-- A parsed maskbit image: pixel type code, dimensions, pixels, and the
projection induced by its WCS header (`world2pix(mask->wcs, ., .)`). -/
structure MaskFileM where
  dtype : Nat
  dim0 : ℤ
  dim1 : ℤ
  bits : List Nat
  pix : ℚ → ℚ → ℚ × ℚ

inductive FileStat where
  | absent
  | unreadable
  | image (f : MaskFileM)

/-- Abstract filesystem: what opening each filename yields. -/
def FSys : Type := String → FileStat

/-- The catalogue columns and type codes used by `assign_mask`
(`DATA` in `src/data_io.h`). -/
structure DataM where
  ra : List ℚ
  dec : List ℚ
  id : List ℤ
  mask : List Nat
  nexp0 : List Nat
  nexp1 : List Nat
  nexp2 : List Nat
  mtype : Nat
  etype0 : Nat
  etype1 : Nat
  etype2 : Nat

/-- Brick metadata used by `assign_mask` (`BRICK` in `src/get_brick.h`). -/
structure BrickM where
  name : List String
  photsys : List Char
  bpath : String
  mnull : Nat
  enull : Nat

/-- `data_init` (`src/data_io.c`, lines 68-72): initial maskbit type code
from the configured null code (note the strict comparisons against
`UINT8_MAX` etc.). -/
def data_init_mtype (mnull : Nat) : Nat :=
  if mnull < 255 then TBYTE
  else if mnull < 65535 then TSHORT
  else if mnull < 4294967295 then TINT
  else TLONG

/-- The maskbits filename
`%s/%s/coadd/%.3s/%s/legacysurvey-%s-maskbits.fits.fz`
(`src/assign_mask.c`, lines 304-307). -/
def maskbits_fname (b : BrickM) (bid : Nat) : String :=
  let ns := if b.photsys[bid]! = 'N' then "north" else "south"
  b.bpath ++ "/" ++ ns ++ "/coadd/" ++ (b.name[bid]!.take 3) ++ "/" ++
    b.name[bid]! ++ "/legacysurvey-" ++ b.name[bid]! ++ "-maskbits.fits.fz"

/-- The nexp filename
`%s/%s/coadd/%.3s/%s/legacysurvey-%s-nexp-%c.fits.fz`
(`src/assign_mask.c`, lines 324-327). -/
def nexp_fname (b : BrickM) (bid : Nat) (c : Char) : String :=
  let ns := if b.photsys[bid]! = 'N' then "north" else "south"
  b.bpath ++ "/" ++ ns ++ "/coadd/" ++ (b.name[bid]!.take 3) ++ "/" ++
    b.name[bid]! ++ "/legacysurvey-" ++ b.name[bid]! ++ "-nexp-" ++
    String.singleton c ++ ".fits.fz"

/-- The slice `l + imin` of length `imax - imin` (the C passes
`data->X + imin` with count `imax - imin`). -/
def sliceGet (l : List α) (imin imax : Nat) : List α :=
  (l.drop imin).take (imax - imin)

/-- Writing a computed slice back at offset `imin`. -/
def sliceSet (l : List Nat) (imin : Nat) (v : List Nat) : List Nat :=
  l.take imin ++ (v ++ l.drop (imin + v.length))

/-- Modelled from the spec: the per-dtype `assign_bitcode` template called
through the function-pointer dispatch in `assign_mask.c` (lines 195-205) is
not among this variant's sources; spec section 4.4 describes it: project each
object of the group, round to the nearest integer pixel, treat an
out-of-bounds pixel as fatal, read the pixel's bit value and add it to the
object's running code unconditionally (the default validity mode). -/
def assign_bitcode_generic (f : MaskFileM) :
    List ℚ → List ℚ → List Nat → Option (List Nat)
  | r :: ras, dc :: decs, c :: cs =>
    if cround (f.pix r dc).1 < 0 ∨ f.dim0 ≤ cround (f.pix r dc).1 ∨
       cround (f.pix r dc).2 < 0 ∨ f.dim1 ≤ cround (f.pix r dc).2 then none
    else (assign_bitcode_generic f ras decs cs).map
      (fun rest => (c + f.bits[(cround (f.pix r dc).1 +
        cround (f.pix r dc).2 * f.dim0).toNat]!) :: rest)
  | _, _, cs => some cs

/-- `assign_mask_from_file` (`src/assign_mask.c`, lines 183-210): a missing
(unreadable) file is not an error — every object of the group gets the null
code `vnull` and the call succeeds with the type slot untouched; a present
file is read (`read_mask` failure is fatal), its type code selects the
bit-assignment routine (unexpected codes are fatal), and the routine's
failure propagates.  `none` models a nonzero error return. -/
def assign_mask_from_file (fs : FSys) (fname : String) (ra dec : List ℚ)
    (code : List Nat) (vnull : Nat) (dtype : Nat) (ndata : Nat) :
    Option (List Nat × Nat) :=
  match fs fname with
  | .absent => some (List.replicate ndata vnull, dtype)
  | .unreadable => none
  | .image f =>
    if f.dtype = TBYTE ∨ f.dtype = TSHORT ∨ f.dtype = TINT ∨ f.dtype = TLONG
    then (assign_bitcode_generic f ra dec code).map (fun c => (c, f.dtype))
    else none

/-- The end of the run of equal brick ids starting at `imin`
(`for (imax = imin + 1; imax < n; imax++) if (id[imax] != id[imin]) break`). -/
def runEnd (ids : List ℤ) (imin : Nat) : Nat :=
  imin + 1 + ((ids.drop (imin + 1)).takeWhile (fun x => x = ids[imin]!)).length

/-- The mutable state of the `assign_mask` loop: the four value columns and
the four persistent `MASK` type-code slots (`mask->dtype`, `mask->etype`,
zero-initialised by `mask_init`'s `calloc`). -/
structure GroupState where
  mask : List Nat
  nexp0 : List Nat
  nexp1 : List Nat
  nexp2 : List Nat
  mdt : Nat
  e0 : Nat
  e1 : Nat
  e2 : Nat
deriving DecidableEq, Repr

/-- Processing of one brick group `[imin, imax)` (`src/assign_mask.c`,
lines 287-341).  When the brick's photometric-region tag is neither `N` nor
`S`, the group's mask and nexp entries are overwritten with the null codes
and `imin` is advanced to `imax` inside that loop, so the subsequent
file-assignment calls fall through with zero objects (the filenames are
still resolved, with the `south` directory). -/
def assign_mask_group (fs : FSys) (b : BrickM) (ra dec : List ℚ)
    (ids : List ℤ) (st : GroupState) (imin imax : Nat) : Option GroupState :=
  let bid := (ids[imin]!).toNat
  let photsys := b.photsys[bid]!
  let filled := photsys ≠ 'N' ∧ photsys ≠ 'S' ∧ imin < imax
  let st0 : GroupState := if filled then
    { st with
      mask := sliceSet st.mask imin (List.replicate (imax - imin) b.mnull),
      nexp0 := sliceSet st.nexp0 imin (List.replicate (imax - imin) b.enull),
      nexp1 := sliceSet st.nexp1 imin (List.replicate (imax - imin) b.enull),
      nexp2 := sliceSet st.nexp2 imin (List.replicate (imax - imin) b.enull) }
    else st
  let i0 := if filled then imax else imin
  let n0 := imax - i0
  match assign_mask_from_file fs (maskbits_fname b bid) (sliceGet ra i0 imax)
    (sliceGet dec i0 imax) (sliceGet st0.mask i0 imax) b.mnull st0.mdt n0 with
  | none => none
  | some (c, mdt1) =>
    let st1 := { st0 with mask := sliceSet st0.mask i0 c, mdt := mdt1 }
    match assign_mask_from_file fs (nexp_fname b bid 'g') (sliceGet ra i0 imax)
      (sliceGet dec i0 imax) (sliceGet st1.nexp0 i0 imax) b.enull st1.e0 n0 with
    | none => none
    | some (c0, e0x) =>
      let st2 := { st1 with nexp0 := sliceSet st1.nexp0 i0 c0, e0 := e0x }
      match assign_mask_from_file fs (nexp_fname b bid 'r')
        (sliceGet ra i0 imax) (sliceGet dec i0 imax)
        (sliceGet st2.nexp1 i0 imax) b.enull st2.e1 n0 with
      | none => none
      | some (c1, e1x) =>
        let st3 := { st2 with nexp1 := sliceSet st2.nexp1 i0 c1, e1 := e1x }
        match assign_mask_from_file fs (nexp_fname b bid 'z')
          (sliceGet ra i0 imax) (sliceGet dec i0 imax)
          (sliceGet st3.nexp2 i0 imax) b.enull st3.e2 n0 with
        | none => none
        | some (c2, e2x) =>
          some { st3 with nexp2 := sliceSet st3.nexp2 i0 c2, e2 := e2x }

/-- The `while (imin < data->n)` loop of `assign_mask`. -/
def assign_mask_loop (fs : FSys) (b : BrickM) (ra dec : List ℚ)
    (ids : List ℤ) (st : GroupState) (imin : Nat) : Option GroupState :=
  if _h : imin < ids.length then
    match assign_mask_group fs b ra dec ids st imin (runEnd ids imin) with
    | none => none
    | some st1 => assign_mask_loop fs b ra dec ids st1 (runEnd ids imin)
  else some st
termination_by ids.length - imin
decreasing_by simp [runEnd]; omega

/-- `assign_mask` (`src/assign_mask.c`, lines 226-375): run the group loop
with zero-initialised `MASK` type slots, then raise the catalogue's type
codes to the slots' final values
(`if (data->mtype < mask->dtype) data->mtype = mask->dtype;` and the same
for the three nexp codes). -/
def assign_mask (fs : FSys) (b : BrickM) (d : DataM) : Option DataM :=
  match assign_mask_loop fs b d.ra d.dec d.id
    ⟨d.mask, d.nexp0, d.nexp1, d.nexp2, 0, 0, 0, 0⟩ 0 with
  | none => none
  | some st => some { d with
      mask := st.mask, nexp0 := st.nexp0, nexp1 := st.nexp1, nexp2 := st.nexp2,
      mtype := max d.mtype st.mdt, etype0 := max d.etype0 st.e0,
      etype1 := max d.etype1 st.e1, etype2 := max d.etype2 st.e2 }

/-- C5: a missing mask file is not an error.  When the resolved filename is
not readable (`access(fname, R_OK)` fails), every object of the brick group
has its code set to the configured null value, the type slot is untouched,
and the per-file assignment returns success. -/
theorem assign_mask_from_file_missing (fs : FSys) (fname : String)
    (ra dec : List ℚ) (code : List Nat) (vnull dtype ndata : Nat)
    (h : fs fname = .absent) :
    assign_mask_from_file fs fname ra dec code vnull dtype ndata =
      some (List.replicate ndata vnull, dtype) := by
  unfold assign_mask_from_file
  rw [h]

theorem assign_mask_from_file_missing_witness :
    assign_mask_from_file (fun _ => FileStat.absent) "x" [1] [2] [9] 3 TBYTE 1 =
      some (List.replicate 1 3, TBYTE) :=
  assign_mask_from_file_missing (fun _ => FileStat.absent) "x" [1] [2] [9] 3
    TBYTE 1 rfl

theorem sliceGet_length (l : List α) (imin imax : Nat) :
    (sliceGet l imin imax).length = min (imax - imin) (l.length - imin) := by
  simp [sliceGet]

theorem sliceGet_full (l : List α) : sliceGet l 0 l.length = l := by
  simp [sliceGet]

theorem sliceGet_empty (l : List α) (k : Nat) : sliceGet l k k = [] := by
  simp [sliceGet]

theorem sliceSet_length (l v : List Nat) (k : Nat)
    (h : k + v.length ≤ l.length) : (sliceSet l k v).length = l.length := by
  simp [sliceSet]
  omega

theorem sliceSet_nil (l : List Nat) (k : Nat) : sliceSet l k [] = l := by
  simp [sliceSet]

theorem sliceSet_get_lt (l v : List Nat) (k j : Nat) (hj : j < k)
    (hk : k ≤ l.length) : (sliceSet l k v)[j]! = l[j]! := by
  have hjl : j < l.length := by omega
  have htk : j < (l.take k).length := by simp; omega
  have hlen : j < (sliceSet l k v).length := by
    unfold sliceSet
    simp
    omega
  rw [getElem!_pos (sliceSet l k v) j hlen, getElem!_pos l j hjl]
  unfold sliceSet
  rw [List.getElem_append_left htk]
  exact List.getElem_take l

theorem sliceSet_get_in (l v : List Nat) (k j : Nat) (h1 : k ≤ j)
    (h2 : j < k + v.length) (hk : k ≤ l.length) :
    (sliceSet l k v)[j]! = v[j - k]! := by
  have htk : (l.take k).length = k := by simp; omega
  have hlen : j < (sliceSet l k v).length := by
    unfold sliceSet
    simp
    omega
  have hjv : j - k < v.length := by omega
  rw [getElem!_pos (sliceSet l k v) j hlen, getElem!_pos v (j - k) hjv]
  unfold sliceSet
  rw [List.getElem_append_right (by omega : (l.take k).length ≤ j)]
  rw [List.getElem_append_left (by simp [htk]; omega : j - (l.take k).length < v.length)]
  congr 1
  omega

theorem sliceSet_get_ge (l v : List Nat) (k j : Nat) (h : k + v.length ≤ j)
    (hk : k + v.length ≤ l.length) : (sliceSet l k v)[j]! = l[j]! := by
  have htk : (l.take k).length = k := by simp; omega
  by_cases hj : j < l.length
  · have hlen : j < (sliceSet l k v).length := by
      unfold sliceSet; simp; omega
    rw [getElem!_pos (sliceSet l k v) j hlen, getElem!_pos l j hj]
    unfold sliceSet
    rw [List.getElem_append_right (by omega : (l.take k).length ≤ j)]
    rw [List.getElem_append_right (by simp [htk]; omega : v.length ≤ j - (l.take k).length)]
    have := List.getElem_drop l (i := (k + v.length))
      (j := j - (l.take k).length - v.length) (h := by simp; omega)
    rw [this]
    congr 1
    omega
  · have hlen : ¬ j < (sliceSet l k v).length := by
      unfold sliceSet; simp; omega
    rw [getElem!_neg (sliceSet l k v) j hlen, getElem!_neg l j hj]

theorem runEnd_gt (ids : List ℤ) (imin : Nat) : imin < runEnd ids imin := by
  unfold runEnd
  omega

theorem runEnd_le (ids : List ℤ) (imin : Nat) (h : imin < ids.length) :
    runEnd ids imin ≤ ids.length := by
  unfold runEnd
  have h1 : ((ids.drop (imin + 1)).takeWhile
      (fun x => x = ids[imin]!)).length ≤ (ids.drop (imin + 1)).length :=
    (List.takeWhile_prefix _).length_le
  simp at h1
  omega

theorem runEnd_id_eq (ids : List ℤ) (imin j : Nat) (h1 : imin ≤ j)
    (h2 : j < runEnd ids imin) : ids[j]! = ids[imin]! := by
  rcases Nat.eq_or_lt_of_le h1 with h | h
  · rw [h]
  · unfold runEnd at h2
    have hk : j - (imin + 1) <
        ((ids.drop (imin + 1)).takeWhile (fun x => x = ids[imin]!)).length := by
      omega
    have hpre := List.takeWhile_prefix (l := ids.drop (imin + 1))
      (p := fun x => x = ids[imin]!)
    have hget := List.IsPrefix.getElem hpre hk
    have hmem : ((ids.drop (imin + 1)).takeWhile
        (fun x => x = ids[imin]!))[j - (imin + 1)] ∈
        (ids.drop (imin + 1)).takeWhile (fun x => x = ids[imin]!) :=
      List.getElem_mem hk
    have hsat := List.mem_takeWhile_imp hmem
    simp only [decide_eq_true_eq] at hsat
    have hlen : ((ids.drop (imin + 1)).takeWhile
        (fun x => x = ids[imin]!)).length ≤ (ids.drop (imin + 1)).length :=
      (List.takeWhile_prefix _).length_le
    have hdj : j - (imin + 1) < (ids.drop (imin + 1)).length := by omega
    have hjlen : j < ids.length := by
      simp at hdj
      omega
    rw [getElem!_pos ids j hjlen]
    rw [hget, List.getElem_drop ids] at hsat
    rw [← hsat]
    congr 1
    omega

theorem assign_bitcode_generic_length (f : MaskFileM) :
    ∀ (ra dec : List ℚ) (code c : List Nat),
      assign_bitcode_generic f ra dec code = some c → c.length = code.length := by
  intro ra
  induction ra with
  | nil =>
    intro dec code c h
    unfold assign_bitcode_generic at h
    simp at h
    rw [← h]
  | cons r ras ih =>
    intro dec code c h
    cases dec with
    | nil =>
      unfold assign_bitcode_generic at h
      simp at h
      rw [← h]
    | cons dc decs =>
      cases code with
      | nil =>
        unfold assign_bitcode_generic at h
        simp at h
        rw [← h]
      | cons c0 cs =>
        unfold assign_bitcode_generic at h
        split_ifs at h
        rcases hrec : assign_bitcode_generic f ras decs cs with _ | rest
        · rw [hrec] at h; simp at h
        · rw [hrec] at h
          simp at h
          rw [← h]
          simp [ih decs cs rest hrec]

theorem assign_mask_from_file_length (fs : FSys) (fname : String)
    (ra dec : List ℚ) (code : List Nat) (vnull dtype ndata : Nat)
    (c : List Nat) (dt : Nat) (hnd : code.length = ndata)
    (h : assign_mask_from_file fs fname ra dec code vnull dtype ndata =
      some (c, dt)) : c.length = ndata := by
  unfold assign_mask_from_file at h
  cases hfs : fs fname <;> rw [hfs] at h
  · simp at h
    rw [← h.1]
    simp
  · simp at h
  · next f =>
    dsimp only at h
    split_ifs at h
    · rcases hg : assign_bitcode_generic f ra dec code with _ | cc <;>
        rw [hg] at h
      · simp at h
      · simp at h
        rw [← h.1, assign_bitcode_generic_length f ra dec code cc hg, hnd]

/-- Length preservation and outside-the-group preservation of one slice
write of the group processing. -/
theorem sliceWrite_outside (l c : List Nat) (i0 imax : Nat) (hi : i0 ≤ imax)
    (himax : imax ≤ l.length) (hc : c.length = imax - i0) :
    (sliceSet l i0 c).length = l.length ∧
    ∀ j, j < i0 ∨ imax ≤ j → (sliceSet l i0 c)[j]! = l[j]! := by
  have hfit : i0 + c.length ≤ l.length := by omega
  refine ⟨sliceSet_length l c i0 hfit, ?_⟩
  intro j hj
  rcases hj with hj | hj
  · exact sliceSet_get_lt l c i0 j hj (by omega)
  · exact sliceSet_get_ge l c i0 j (by omega) hfit

theorem assign_mask_group_wf (fs : FSys) (b : BrickM) (ra dec : List ℚ)
    (ids : List ℤ) (st st1 : GroupState) (imin imax : Nat)
    (himin : imin ≤ imax) (hle : imax ≤ ids.length)
    (hwf : st.mask.length = ids.length ∧ st.nexp0.length = ids.length ∧
      st.nexp1.length = ids.length ∧ st.nexp2.length = ids.length)
    (h : assign_mask_group fs b ra dec ids st imin imax = some st1) :
    (st1.mask.length = ids.length ∧ st1.nexp0.length = ids.length ∧
      st1.nexp1.length = ids.length ∧ st1.nexp2.length = ids.length) ∧
    ∀ j, j < imin ∨ imax ≤ j →
      st1.mask[j]! = st.mask[j]! ∧ st1.nexp0[j]! = st.nexp0[j]! ∧
      st1.nexp1[j]! = st.nexp1[j]! ∧ st1.nexp2[j]! = st.nexp2[j]! := by
  unfold assign_mask_group at h
  dsimp only at h
  -- the post-fill state and starting index
  set P : Prop := b.photsys[(ids[imin]!).toNat]! ≠ 'N' ∧
    b.photsys[(ids[imin]!).toNat]! ≠ 'S' ∧ imin < imax with hP
  set st0 : GroupState := if P then
    { st with
      mask := sliceSet st.mask imin (List.replicate (imax - imin) b.mnull),
      nexp0 := sliceSet st.nexp0 imin (List.replicate (imax - imin) b.enull),
      nexp1 := sliceSet st.nexp1 imin (List.replicate (imax - imin) b.enull),
      nexp2 := sliceSet st.nexp2 imin (List.replicate (imax - imin) b.enull) }
    else st with hst0
  set i0 : Nat := if P then imax else imin with hi0
  have hi0ge : imin ≤ i0 := by rw [hi0]; split_ifs <;> omega
  have hi0le : i0 ≤ imax := by rw [hi0]; split_ifs <;> omega
  have h0 : (st0.mask.length = ids.length ∧ st0.nexp0.length = ids.length ∧
      st0.nexp1.length = ids.length ∧ st0.nexp2.length = ids.length) ∧
      ∀ j, j < imin ∨ imax ≤ j →
        st0.mask[j]! = st.mask[j]! ∧ st0.nexp0[j]! = st.nexp0[j]! ∧
        st0.nexp1[j]! = st.nexp1[j]! ∧ st0.nexp2[j]! = st.nexp2[j]! := by
    rw [hst0]
    split_ifs with hPP
    · have hrep : ∀ x : Nat, (List.replicate (imax - imin) x).length =
          imax - imin := by intro x; simp
      have w1 := sliceWrite_outside st.mask
        (List.replicate (imax - imin) b.mnull) imin imax himin
        (by omega) (hrep _)
      have w2 := sliceWrite_outside st.nexp0
        (List.replicate (imax - imin) b.enull) imin imax himin
        (by omega) (hrep _)
      have w3 := sliceWrite_outside st.nexp1
        (List.replicate (imax - imin) b.enull) imin imax himin
        (by omega) (hrep _)
      have w4 := sliceWrite_outside st.nexp2
        (List.replicate (imax - imin) b.enull) imin imax himin
        (by omega) (hrep _)
      exact ⟨⟨by simp [w1.1, hwf.1], by simp [w2.1, hwf.2.1],
        by simp [w3.1, hwf.2.2.1], by simp [w4.1, hwf.2.2.2]⟩,
        fun j hj => ⟨w1.2 j hj, w2.2 j hj, w3.2 j hj, w4.2 j hj⟩⟩
    · exact ⟨hwf, fun j hj => ⟨rfl, rfl, rfl, rfl⟩⟩
  rcases hm1 : assign_mask_from_file fs (maskbits_fname b (ids[imin]!).toNat)
      (sliceGet ra i0 imax) (sliceGet dec i0 imax)
      (sliceGet st0.mask i0 imax) b.mnull st0.mdt (imax - i0) with _ | cp1
  · rw [hm1] at h; simp at h
  rcases cp1 with ⟨c1, mdt1⟩
  rw [hm1] at h
  have hc1 : c1.length = imax - i0 :=
    assign_mask_from_file_length _ _ _ _ _ _ _ _ _ _
      (by rw [sliceGet_length]; omega) hm1
  have w1 := sliceWrite_outside st0.mask c1 i0 imax hi0le (by omega) hc1
  rcases hm2 : assign_mask_from_file fs (nexp_fname b (ids[imin]!).toNat 'g')
      (sliceGet ra i0 imax) (sliceGet dec i0 imax)
      (sliceGet st0.nexp0 i0 imax) b.enull st0.e0 (imax - i0) with _ | cp2
  · rw [hm2] at h; simp at h
  rcases cp2 with ⟨c2, e0x⟩
  rw [hm2] at h
  have hc2 : c2.length = imax - i0 :=
    assign_mask_from_file_length _ _ _ _ _ _ _ _ _ _
      (by rw [sliceGet_length]; omega) hm2
  have w2 := sliceWrite_outside st0.nexp0 c2 i0 imax hi0le (by omega) hc2
  rcases hm3 : assign_mask_from_file fs (nexp_fname b (ids[imin]!).toNat 'r')
      (sliceGet ra i0 imax) (sliceGet dec i0 imax)
      (sliceGet st0.nexp1 i0 imax) b.enull st0.e1 (imax - i0) with _ | cp3
  · rw [hm3] at h; simp at h
  rcases cp3 with ⟨c3, e1x⟩
  rw [hm3] at h
  have hc3 : c3.length = imax - i0 :=
    assign_mask_from_file_length _ _ _ _ _ _ _ _ _ _
      (by rw [sliceGet_length]; omega) hm3
  have w3 := sliceWrite_outside st0.nexp1 c3 i0 imax hi0le (by omega) hc3
  rcases hm4 : assign_mask_from_file fs (nexp_fname b (ids[imin]!).toNat 'z')
      (sliceGet ra i0 imax) (sliceGet dec i0 imax)
      (sliceGet st0.nexp2 i0 imax) b.enull st0.e2 (imax - i0) with _ | cp4
  · rw [hm4] at h; simp at h
  rcases cp4 with ⟨c4, e2x⟩
  rw [hm4] at h
  have hc4 : c4.length = imax - i0 :=
    assign_mask_from_file_length _ _ _ _ _ _ _ _ _ _
      (by rw [sliceGet_length]; omega) hm4
  have w4 := sliceWrite_outside st0.nexp2 c4 i0 imax hi0le (by omega) hc4
  simp only [Option.some.injEq] at h
  rw [← h]
  refine ⟨⟨?_, ?_, ?_, ?_⟩, ?_⟩
  · simpa [w1.1] using h0.1.1
  · simpa [w2.1] using h0.1.2.1
  · simpa [w3.1] using h0.1.2.2.1
  · simpa [w4.1] using h0.1.2.2.2
  · intro j hj
    have hj0 : j < i0 ∨ imax ≤ j := by omega
    exact ⟨(w1.2 j hj0).trans (h0.2 j hj).1,
      (w2.2 j hj0).trans (h0.2 j hj).2.1,
      (w3.2 j hj0).trans (h0.2 j hj).2.2.1,
      (w4.2 j hj0).trans (h0.2 j hj).2.2.2⟩

theorem assign_mask_loop_locality (fs : FSys) (b : BrickM) (ra dec : List ℚ)
    (ids : List ℤ) :
    ∀ n (st : GroupState) (imin : Nat) (stres : GroupState),
      ids.length - imin ≤ n →
      (st.mask.length = ids.length ∧ st.nexp0.length = ids.length ∧
        st.nexp1.length = ids.length ∧ st.nexp2.length = ids.length) →
      assign_mask_loop fs b ra dec ids st imin = some stres →
      (stres.mask.length = ids.length ∧ stres.nexp0.length = ids.length ∧
        stres.nexp1.length = ids.length ∧ stres.nexp2.length = ids.length) ∧
      ∀ j, j < imin →
        stres.mask[j]! = st.mask[j]! ∧ stres.nexp0[j]! = st.nexp0[j]! ∧
        stres.nexp1[j]! = st.nexp1[j]! ∧ stres.nexp2[j]! = st.nexp2[j]! := by
  intro n
  induction n with
  | zero =>
    intro st imin stres hn hwf h
    rw [assign_mask_loop, dif_neg (by omega)] at h
    simp at h
    rw [← h]
    exact ⟨hwf, fun j _ => ⟨rfl, rfl, rfl, rfl⟩⟩
  | succ n ih =>
    intro st imin stres hn hwf h
    by_cases hlt : imin < ids.length
    · rw [assign_mask_loop, dif_pos hlt] at h
      rcases hg : assign_mask_group fs b ra dec ids st imin
          (runEnd ids imin) with _ | st1
      · rw [hg] at h; simp at h
      · rw [hg] at h
        have hgt := runEnd_gt ids imin
        have hle := runEnd_le ids imin hlt
        have hgwf := assign_mask_group_wf fs b ra dec ids st st1 imin
          (runEnd ids imin) (by omega) hle hwf hg
        have hrec := ih st1 (runEnd ids imin) stres (by omega) hgwf.1 h
        refine ⟨hrec.1, ?_⟩
        intro j hj
        have h1 := hrec.2 j (by omega)
        have h2 := hgwf.2 j (Or.inl hj)
        exact ⟨h1.1.trans h2.1, h1.2.1.trans h2.2.1,
          h1.2.2.1.trans h2.2.2.1, h1.2.2.2.trans h2.2.2.2⟩
    · rw [assign_mask_loop, dif_neg hlt] at h
      simp at h
      rw [← h]
      exact ⟨hwf, fun j _ => ⟨rfl, rfl, rfl, rfl⟩⟩

theorem assign_mask_group_nophotsys (fs : FSys) (b : BrickM)
    (ra dec : List ℚ) (ids : List ℤ) (st st1 : GroupState) (imin imax : Nat)
    (hlt : imin < imax) (hle : imax ≤ ids.length)
    (hwf : st.mask.length = ids.length ∧ st.nexp0.length = ids.length ∧
      st.nexp1.length = ids.length ∧ st.nexp2.length = ids.length)
    (hpsN : b.photsys[(ids[imin]!).toNat]! ≠ 'N')
    (hpsS : b.photsys[(ids[imin]!).toNat]! ≠ 'S')
    (h : assign_mask_group fs b ra dec ids st imin imax = some st1) :
    ∀ j, imin ≤ j → j < imax →
      st1.mask[j]! = b.mnull ∧ st1.nexp0[j]! = b.enull ∧
      st1.nexp1[j]! = b.enull ∧ st1.nexp2[j]! = b.enull := by
  unfold assign_mask_group at h
  dsimp only at h
  rw [if_pos (⟨hpsN, hpsS, hlt⟩ : b.photsys[(ids[imin]!).toNat]! ≠ 'N' ∧
      b.photsys[(ids[imin]!).toNat]! ≠ 'S' ∧ imin < imax)] at h
  rw [if_pos (⟨hpsN, hpsS, hlt⟩ : b.photsys[(ids[imin]!).toNat]! ≠ 'N' ∧
      b.photsys[(ids[imin]!).toNat]! ≠ 'S' ∧ imin < imax)] at h
  set stf : GroupState :=
    { st with
      mask := sliceSet st.mask imin (List.replicate (imax - imin) b.mnull),
      nexp0 := sliceSet st.nexp0 imin (List.replicate (imax - imin) b.enull),
      nexp1 := sliceSet st.nexp1 imin (List.replicate (imax - imin) b.enull),
      nexp2 := sliceSet st.nexp2 imin (List.replicate (imax - imin) b.enull) }
    with hstf
  rcases hm1 : assign_mask_from_file fs (maskbits_fname b (ids[imin]!).toNat)
      (sliceGet ra imax imax) (sliceGet dec imax imax)
      (sliceGet stf.mask imax imax) b.mnull stf.mdt (imax - imax) with _ | cp1
  · rw [hm1] at h; simp at h
  rcases cp1 with ⟨c1, mdt1⟩
  rw [hm1] at h
  have hc1 : c1 = [] := List.length_eq_zero.mp (by
    have := assign_mask_from_file_length _ _ _ _ _ _ _ _ _ _
      (by rw [sliceGet_length]; omega) hm1
    omega)
  rcases hm2 : assign_mask_from_file fs (nexp_fname b (ids[imin]!).toNat 'g')
      (sliceGet ra imax imax) (sliceGet dec imax imax)
      (sliceGet stf.nexp0 imax imax) b.enull stf.e0
      (imax - imax) with _ | cp2
  · rw [hm2] at h; simp at h
  rcases cp2 with ⟨c2, e0x⟩
  rw [hm2] at h
  have hc2 : c2 = [] := List.length_eq_zero.mp (by
    have := assign_mask_from_file_length _ _ _ _ _ _ _ _ _ _
      (by rw [sliceGet_length]; omega) hm2
    omega)
  rcases hm3 : assign_mask_from_file fs (nexp_fname b (ids[imin]!).toNat 'r')
      (sliceGet ra imax imax) (sliceGet dec imax imax)
      (sliceGet stf.nexp1 imax imax) b.enull stf.e1
      (imax - imax) with _ | cp3
  · rw [hm3] at h; simp at h
  rcases cp3 with ⟨c3, e1x⟩
  rw [hm3] at h
  have hc3 : c3 = [] := List.length_eq_zero.mp (by
    have := assign_mask_from_file_length _ _ _ _ _ _ _ _ _ _
      (by rw [sliceGet_length]; omega) hm3
    omega)
  rcases hm4 : assign_mask_from_file fs (nexp_fname b (ids[imin]!).toNat 'z')
      (sliceGet ra imax imax) (sliceGet dec imax imax)
      (sliceGet stf.nexp2 imax imax) b.enull stf.e2
      (imax - imax) with _ | cp4
  · rw [hm4] at h; simp at h
  rcases cp4 with ⟨c4, e2x⟩
  rw [hm4] at h
  have hc4 : c4 = [] := List.length_eq_zero.mp (by
    have := assign_mask_from_file_length _ _ _ _ _ _ _ _ _ _
      (by rw [sliceGet_length]; omega) hm4
    omega)
  simp only [Option.some.injEq] at h
  subst hc1 hc2 hc3 hc4
  rw [sliceSet_nil, sliceSet_nil, sliceSet_nil, sliceSet_nil] at h
  rw [← h]
  intro j hj1 hj2
  have hrepm : (List.replicate (imax - imin) b.mnull)[j - imin]! = b.mnull := by
    rw [getElem!_pos _ _ (by simp; omega)]
    simp
  have hrepe : (List.replicate (imax - imin) b.enull)[j - imin]! = b.enull := by
    rw [getElem!_pos _ _ (by simp; omega)]
    simp
  have hrep : ∀ x : Nat, (List.replicate (imax - imin) x).length =
      imax - imin := by intro x; simp
  refine ⟨?_, ?_, ?_, ?_⟩
  · rw [show stf.mask = sliceSet st.mask imin
      (List.replicate (imax - imin) b.mnull) from rfl]
    rw [sliceSet_get_in st.mask _ imin j hj1 (by rw [hrep]; omega) (by omega)]
    exact hrepm
  · rw [show stf.nexp0 = sliceSet st.nexp0 imin
      (List.replicate (imax - imin) b.enull) from rfl]
    rw [sliceSet_get_in st.nexp0 _ imin j hj1 (by rw [hrep]; omega) (by omega)]
    exact hrepe
  · rw [show stf.nexp1 = sliceSet st.nexp1 imin
      (List.replicate (imax - imin) b.enull) from rfl]
    rw [sliceSet_get_in st.nexp1 _ imin j hj1 (by rw [hrep]; omega) (by omega)]
    exact hrepe
  · rw [show stf.nexp2 = sliceSet st.nexp2 imin
      (List.replicate (imax - imin) b.enull) from rfl]
    rw [sliceSet_get_in st.nexp2 _ imin j hj1 (by rw [hrep]; omega) (by omega)]
    exact hrepe

theorem assign_mask_loop_nophotsys (fs : FSys) (b : BrickM) (ra dec : List ℚ)
    (ids : List ℤ) :
    ∀ n (st : GroupState) (imin : Nat) (stres : GroupState),
      ids.length - imin ≤ n →
      (st.mask.length = ids.length ∧ st.nexp0.length = ids.length ∧
        st.nexp1.length = ids.length ∧ st.nexp2.length = ids.length) →
      assign_mask_loop fs b ra dec ids st imin = some stres →
      ∀ i, imin ≤ i → i < ids.length →
        b.photsys[(ids[i]!).toNat]! ≠ 'N' →
        b.photsys[(ids[i]!).toNat]! ≠ 'S' →
        stres.mask[i]! = b.mnull ∧ stres.nexp0[i]! = b.enull ∧
        stres.nexp1[i]! = b.enull ∧ stres.nexp2[i]! = b.enull := by
  intro n
  induction n with
  | zero =>
    intro st imin stres hn hwf h i hi1 hi2 _ _
    omega
  | succ n ih =>
    intro st imin stres hn hwf h i hi1 hi2 hN hS
    have hlt : imin < ids.length := by omega
    rw [assign_mask_loop, dif_pos hlt] at h
    rcases hg : assign_mask_group fs b ra dec ids st imin
        (runEnd ids imin) with _ | st1
    · rw [hg] at h; simp at h
    rw [hg] at h
    have hgt := runEnd_gt ids imin
    have hle := runEnd_le ids imin hlt
    have hgwf := assign_mask_group_wf fs b ra dec ids st st1 imin
      (runEnd ids imin) (by omega) hle hwf hg
    by_cases hcase : i < runEnd ids imin
    · have hid : ids[i]! = ids[imin]! := runEnd_id_eq ids imin i hi1 hcase
      have hvals := assign_mask_group_nophotsys fs b ra dec ids st st1 imin
        (runEnd ids imin) hgt hle hwf (by rw [← hid]; exact hN)
        (by rw [← hid]; exact hS) hg i hi1 hcase
      have hloc := assign_mask_loop_locality fs b ra dec ids n st1
        (runEnd ids imin) stres (by omega) hgwf.1 h
      have hpres := hloc.2 i hcase
      exact ⟨hpres.1.trans hvals.1, hpres.2.1.trans hvals.2.1,
        hpres.2.2.1.trans hvals.2.2.1, hpres.2.2.2.trans hvals.2.2.2⟩
    · exact ih st1 (runEnd ids imin) stres (by omega) hgwf.1 h i
        (by omega) hi2 hN hS

/-- C10: for every object whose brick's photometric-region tag is neither
`N` nor `S`, a successful mask-assignment run leaves the object with the
configured mask null code and all three nexp null codes: the group is
overwritten with the null codes and the fall-through file assignments
operate on zero objects, so no mask-file pixel value is applied. -/
theorem assign_mask_nophotsys_null (fs : FSys) (b : BrickM) (d dres : DataM)
    (i : Nat)
    (hwf : d.mask.length = d.id.length ∧ d.nexp0.length = d.id.length ∧
      d.nexp1.length = d.id.length ∧ d.nexp2.length = d.id.length)
    (hsucc : assign_mask fs b d = some dres)
    (hi : i < d.id.length)
    (hN : b.photsys[(d.id[i]!).toNat]! ≠ 'N')
    (hS : b.photsys[(d.id[i]!).toNat]! ≠ 'S') :
    dres.mask[i]! = b.mnull ∧ dres.nexp0[i]! = b.enull ∧
    dres.nexp1[i]! = b.enull ∧ dres.nexp2[i]! = b.enull := by
  unfold assign_mask at hsucc
  rcases hl : assign_mask_loop fs b d.ra d.dec d.id
      ⟨d.mask, d.nexp0, d.nexp1, d.nexp2, 0, 0, 0, 0⟩ 0 with _ | st
  · rw [hl] at hsucc; simp at hsucc
  rw [hl] at hsucc
  simp only [Option.some.injEq] at hsucc
  have := assign_mask_loop_nophotsys fs b d.ra d.dec d.id d.id.length
    ⟨d.mask, d.nexp0, d.nexp1, d.nexp2, 0, 0, 0, 0⟩ 0 st (by omega) hwf hl
    i (by omega) hi hN hS
  rw [← hsucc]
  exact this

/-- A filesystem on which every filename is unreadable (missing files). -/
def fsAbsent : FSys := fun _ => FileStat.absent

def brickC10 : BrickM := ⟨["bri"], ['X'], "p", 3, 5⟩

def dataC10 : DataM :=
  ⟨[1], [2], [0], [0], [0], [0], [0], TBYTE, TBYTE, TBYTE, TBYTE⟩

theorem assign_mask_nophotsys_null_witness :
    (⟨[1], [2], [0], [3], [5], [5], [5], TBYTE, TBYTE, TBYTE, TBYTE⟩ :
      DataM).mask[0]! = brickC10.mnull ∧
    (⟨[1], [2], [0], [3], [5], [5], [5], TBYTE, TBYTE, TBYTE, TBYTE⟩ :
      DataM).nexp0[0]! = brickC10.enull ∧
    (⟨[1], [2], [0], [3], [5], [5], [5], TBYTE, TBYTE, TBYTE, TBYTE⟩ :
      DataM).nexp1[0]! = brickC10.enull ∧
    (⟨[1], [2], [0], [3], [5], [5], [5], TBYTE, TBYTE, TBYTE, TBYTE⟩ :
      DataM).nexp2[0]! = brickC10.enull :=
  assign_mask_nophotsys_null fsAbsent brickC10 dataC10
    ⟨[1], [2], [0], [3], [5], [5], [5], TBYTE, TBYTE, TBYTE, TBYTE⟩ 0
    (by decide)
    (by
      unfold assign_mask
      have hg : assign_mask_group fsAbsent brickC10 [1] [2] [0]
          ⟨[0], [0], [0], [0], 0, 0, 0, 0⟩ 0 (runEnd [0] 0) =
          some ⟨[3], [5], [5], [5], 0, 0, 0, 0⟩ := by decide
      have hl : assign_mask_loop fsAbsent brickC10 [1] [2] [0]
          ⟨[0], [0], [0], [0], 0, 0, 0, 0⟩ 0 =
          some ⟨[3], [5], [5], [5], 0, 0, 0, 0⟩ := by
        rw [assign_mask_loop, dif_pos (by decide), hg]
        dsimp only
        rw [show runEnd [0] 0 = 1 from by decide]
        rw [assign_mask_loop, dif_neg (by decide)]
      rw [show dataC10.ra = [1] from rfl, show dataC10.dec = [2] from rfl,
        show dataC10.id = [0] from rfl, show dataC10.mask = [0] from rfl,
        show dataC10.nexp0 = [0] from rfl, show dataC10.nexp1 = [0] from rfl,
        show dataC10.nexp2 = [0] from rfl, hl]
      rfl)
    (by decide) (by decide) (by decide)

theorem sliceSet_full (l v : List Nat) (h : v.length = l.length) :
    sliceSet l 0 v = v := by
  unfold sliceSet
  simp [h]

/-- C2 (amended): the emitted mask storage width is not derived from the
maximum observed mask code.  It starts from the width implied by the
configured null code (`data_init`) and is raised to the pixel type of the
(last) opened maskbits image: for a single-group catalogue whose brick has a
readable maskbits file of pixel type `f.dtype`, the final type code is
`max d.mtype f.dtype` whatever bit values the file contains. -/
theorem assign_mask_mtype_from_file_dtype (fs : FSys) (b : BrickM)
    (d : DataM) (f : MaskFileM) (c : List Nat)
    (hn : 0 < d.id.length)
    (hrun : runEnd d.id 0 = d.id.length)
    (hra : d.ra.length = d.id.length) (hdec : d.dec.length = d.id.length)
    (hm : d.mask.length = d.id.length)
    (hn0 : d.nexp0.length = d.id.length) (hn1 : d.nexp1.length = d.id.length)
    (hn2 : d.nexp2.length = d.id.length)
    (hps : b.photsys[(d.id[0]!).toNat]! = 'N')
    (hfile : fs (maskbits_fname b (d.id[0]!).toNat) = .image f)
    (hdt : f.dtype = TBYTE ∨ f.dtype = TSHORT ∨ f.dtype = TINT ∨
      f.dtype = TLONG)
    (hbit : assign_bitcode_generic f d.ra d.dec d.mask = some c)
    (hg : fs (nexp_fname b (d.id[0]!).toNat 'g') = .absent)
    (hr : fs (nexp_fname b (d.id[0]!).toNat 'r') = .absent)
    (hz : fs (nexp_fname b (d.id[0]!).toNat 'z') = .absent) :
    ∃ dres, assign_mask fs b d = some dres ∧
      dres.mtype = max d.mtype f.dtype ∧ dres.mask = c ∧
      dres.nexp0 = List.replicate d.id.length b.enull ∧
      dres.nexp1 = List.replicate d.id.length b.enull ∧
      dres.nexp2 = List.replicate d.id.length b.enull := by
  have hc : c.length = d.id.length := by
    rw [assign_bitcode_generic_length f d.ra d.dec d.mask c hbit, hm]
  have hgrp : assign_mask_group fs b d.ra d.dec d.id
      ⟨d.mask, d.nexp0, d.nexp1, d.nexp2, 0, 0, 0, 0⟩ 0 (runEnd d.id 0) =
      some ⟨c, List.replicate d.id.length b.enull,
        List.replicate d.id.length b.enull, List.replicate d.id.length b.enull,
        f.dtype, 0, 0, 0⟩ := by
    unfold assign_mask_group
    dsimp only
    rw [hrun]
    have hP : ¬ (b.photsys[(d.id[0]!).toNat]! ≠ 'N' ∧
        b.photsys[(d.id[0]!).toNat]! ≠ 'S' ∧ 0 < d.id.length) := by
      simp [hps]
    rw [if_neg hP, if_neg hP]
    have hsra : sliceGet d.ra 0 d.id.length = d.ra := by
      rw [← hra]; exact sliceGet_full d.ra
    have hsdec : sliceGet d.dec 0 d.id.length = d.dec := by
      rw [← hdec]; exact sliceGet_full d.dec
    have hsm : sliceGet d.mask 0 d.id.length = d.mask := by
      rw [← hm]; exact sliceGet_full d.mask
    have hsn0 : sliceGet d.nexp0 0 d.id.length = d.nexp0 := by
      rw [← hn0]; exact sliceGet_full d.nexp0
    have hsn1 : sliceGet d.nexp1 0 d.id.length = d.nexp1 := by
      rw [← hn1]; exact sliceGet_full d.nexp1
    have hsn2 : sliceGet d.nexp2 0 d.id.length = d.nexp2 := by
      rw [← hn2]; exact sliceGet_full d.nexp2
    have hm1 : assign_mask_from_file fs (maskbits_fname b (d.id[0]!).toNat)
        d.ra d.dec d.mask b.mnull 0 (d.id.length - 0) = some (c, f.dtype) := by
      unfold assign_mask_from_file
      rw [hfile]
      dsimp only
      rw [if_pos hdt, hbit]
      rfl
    have habs : ∀ (fname : String) (code : List Nat) (vnull dt : Nat),
        fs fname = .absent →
        assign_mask_from_file fs fname d.ra d.dec code vnull dt
          (d.id.length - 0) =
          some (List.replicate (d.id.length - 0) vnull, dt) := by
      intro fname code vnull dt hf
      unfold assign_mask_from_file
      rw [hf]
    rw [hsra, hsdec, hsm, hm1]
    dsimp only
    rw [show sliceSet d.mask 0 c = c from sliceSet_full d.mask c (by omega)]
    rw [hsn0, habs _ _ _ _ hg]
    dsimp only
    rw [show sliceSet d.nexp0 0 (List.replicate (d.id.length - 0) b.enull) =
      List.replicate (d.id.length - 0) b.enull from
      sliceSet_full d.nexp0 _ (by simp; omega)]
    rw [hsn1, habs _ _ _ _ hr]
    dsimp only
    rw [show sliceSet d.nexp1 0 (List.replicate (d.id.length - 0) b.enull) =
      List.replicate (d.id.length - 0) b.enull from
      sliceSet_full d.nexp1 _ (by simp; omega)]
    rw [hsn2, habs _ _ _ _ hz]
    dsimp only
    rw [show sliceSet d.nexp2 0 (List.replicate (d.id.length - 0) b.enull) =
      List.replicate (d.id.length - 0) b.enull from
      sliceSet_full d.nexp2 _ (by simp; omega)]
    simp
  unfold assign_mask
  rw [assign_mask_loop, dif_pos hn, hgrp]
  dsimp only
  rw [hrun]
  rw [assign_mask_loop, dif_neg (lt_irrefl d.id.length)]
  exact ⟨_, rfl, by simp, rfl, rfl, rfl, rfl⟩

def brickC2 : BrickM := ⟨["bri"], ['N'], "p", 255, 1⟩

/-- The catalogue after `data_init` with `MASKBIT_NULL = 255`: the strict
comparison `mnull < UINT8_MAX` already selects the 16-bit type code. -/
def dataC2 : DataM :=
  ⟨[1], [2], [0], [0], [0], [0], [0], data_init_mtype 255, TBYTE, TBYTE, TBYTE⟩

/-- C2 counterexample: a run whose final mask codes all fit in 8 bits (the
maximum observed code is `255 < 2^8`) is emitted with the 16-bit storage
type: the width is derived from the configured null code and the mask
images' pixel types, never from the maximum observed mask code. -/
theorem assign_mask_width_not_minimal :
    ∃ dres, assign_mask fsAbsent brickC2 dataC2 = some dres ∧
      dres.mask = [255] ∧ (∀ v ∈ dres.mask, v < 2 ^ 8) ∧
      dres.mtype = TSHORT ∧ dtypeBits dres.mtype = some 16 ∧
      dres.mtype ≠ TBYTE := by
  refine ⟨⟨[1], [2], [0], [255], [1], [1], [1], TSHORT, TBYTE, TBYTE, TBYTE⟩,
    ?_, by decide, by decide, by decide, by decide, by decide⟩
  unfold assign_mask
  have hg : assign_mask_group fsAbsent brickC2 [1] [2] [0]
      ⟨[0], [0], [0], [0], 0, 0, 0, 0⟩ 0 (runEnd [0] 0) =
      some ⟨[255], [1], [1], [1], 0, 0, 0, 0⟩ := by decide
  have hl : assign_mask_loop fsAbsent brickC2 [1] [2] [0]
      ⟨[0], [0], [0], [0], 0, 0, 0, 0⟩ 0 =
      some ⟨[255], [1], [1], [1], 0, 0, 0, 0⟩ := by
    rw [assign_mask_loop, dif_pos (by decide), hg]
    dsimp only
    rw [show runEnd [0] 0 = 1 from by decide]
    rw [assign_mask_loop, dif_neg (by decide)]
  rw [show dataC2.ra = [1] from rfl, show dataC2.dec = [2] from rfl,
    show dataC2.id = [0] from rfl, show dataC2.mask = [0] from rfl,
    show dataC2.nexp0 = [0] from rfl, show dataC2.nexp1 = [0] from rfl,
    show dataC2.nexp2 = [0] from rfl, hl]
  dsimp only
  rw [show (max dataC2.mtype 0 : Nat) = TSHORT from by decide]
  rfl

def brickC2w : BrickM := ⟨["bri"], ['N'], "p", 1, 1⟩

def dataC2w : DataM :=
  ⟨[0], [0], [0], [0], [0], [0], [0], TBYTE, TBYTE, TBYTE, TBYTE⟩

/-- A 16-bit maskbits image holding the single value `250`. -/
def fileC2 : MaskFileM := ⟨TSHORT, 1, 1, [250], fun _ _ => (0, 0)⟩

/-- A filesystem with exactly one readable file: the brick's maskbits
image. -/
def fsC2 : FSys := fun s =>
  if s = maskbits_fname brickC2w 0 then FileStat.image fileC2
  else FileStat.absent

theorem assign_mask_mtype_from_file_dtype_witness :
    ∃ dres, assign_mask fsC2 brickC2w dataC2w = some dres ∧
      dres.mtype = max dataC2w.mtype fileC2.dtype ∧ dres.mask = [250] ∧
      dres.nexp0 = List.replicate dataC2w.id.length brickC2w.enull ∧
      dres.nexp1 = List.replicate dataC2w.id.length brickC2w.enull ∧
      dres.nexp2 = List.replicate dataC2w.id.length brickC2w.enull :=
  assign_mask_mtype_from_file_dtype fsC2 brickC2w dataC2w fileC2 [250]
    (by decide) (by decide) (by decide) (by decide) (by decide) (by decide)
    (by decide) (by decide) (by decide)
    (by
      show fsC2 (maskbits_fname brickC2w 0) = FileStat.image fileC2
      unfold fsC2
      rw [if_pos rfl])
    (Or.inr (Or.inl rfl))
    (by
      show assign_bitcode_generic fileC2 [0] [0] [0] = some [250]
      norm_num [assign_bitcode_generic, cround, fileC2])
    (by
      show fsC2 (nexp_fname brickC2w 0 'g') = FileStat.absent
      unfold fsC2
      rw [if_neg (by decide)])
    (by
      show fsC2 (nexp_fname brickC2w 0 'r') = FileStat.absent
      unfold fsC2
      rw [if_neg (by decide)])
    (by
      show fsC2 (nexp_fname brickC2w 0 'z') = FileStat.absent
      unfold fsC2
      rw [if_neg (by decide)])
